import Mathlib

/-!
Verification of the string-scanning routines of the struhchuh repository.

The routines search a buffer of known length for the byte `'*'` (0x2a) or for
the adjacent pair `"*#"` (0x2a 0x23), using bytewise loops, Alan Mycroft's
word-at-a-time borrow trick (4- and 8-byte words), and SSE2 16-byte compares.

Shallow embedding conventions:
- memory is a total function `Mem : Int → Fin 256`; offset `o` models the C
  byte `s[o]`, so bytes before the buffer (negative offsets) and after it are
  ordinary memory, exactly as in the C code, which deliberately over-reads;
- `addr : Nat` models the numeric value of the base pointer `s`; the code
  only ever uses its low bits for alignment;
- `len : Nat` models the `int len` argument (the harness only passes
  non-negative lengths);
- machine words are `Nat` values reduced `% 2^32` or `% 2^64` where the C
  computation can wrap; `~x` on a `w`-bit word is `x ^^^ (2^w - 1)`;
- every C loop becomes a structurally recursive function on an explicit fuel
  argument; the top-level wrappers pass fuel that is large enough that the
  exhaustion branch (which returns the same `-127` fallback) is unreachable;
- `_mm_cmpeq_epi8` followed by `_mm_movemask_epi8` is embedded as `mmask`,
  the packed integer whose bit `k` is set iff byte lane `k` equals the target;
- `__builtin_ffs`/`__builtin_ffsll` is embedded as `ffs`: one plus the index
  of the lowest set bit, and `0` on input `0`.
-/

set_option maxHeartbeats 4000000
set_option maxRecDepth 10000

abbrev Byte := Fin 256

abbrev Mem := Int → Byte

/-- byte value of the character `'*'` -/
def star : Byte := 42

/-- byte value of the character `'#'` -/
def hash : Byte := 35

/-- 2^32, the modulus of `uint32_t` arithmetic -/
def M32 : Nat := 4294967296

/-- 2^64, the modulus of `uint64_t` arithmetic -/
def M64 : Nat := 18446744073709551616

/-- little-endian load of `w` bytes starting at offset `i`, modelling the C
casts `*(uint32_t*)(s + i)` and `*(uint64_t*)(s + i)` -/
def wload (mem : Mem) (i : Int) : Nat → Nat
  | 0 => 0
  | w+1 => (mem i).val + 256 * wload mem (i+1) w

/-- packed comparison mask: bit `k` (for `k < w`) is set iff `s[i+k] = t`.
This is the composition of `_mm_cmpeq_epi8` (byte lanes become 0xff or 0x00)
with `_mm_movemask_epi8` (collect the top bit of every lane). -/
def mmask (mem : Mem) (i : Int) (t : Byte) : Nat → Nat
  | 0 => 0
  | w+1 => (if mem i = t then 1 else 0) + 2 * mmask mem (i+1) t w

/-- count of trailing zero bits, with explicit fuel -/
def ctzF : Nat → Nat → Nat
  | 0, _ => 0
  | f+1, x => if x % 2 = 1 then 0 else ctzF f (x / 2) + 1

/-- `__builtin_ffs`: one plus the index of the least significant set bit,
and `0` when the argument is `0` -/
def ffs (x : Nat) : Nat := if x = 0 then 0 else ctzF x x + 1

/-! ## test_naive : bytewise scan for `'*'` -/

def naiveLoop (mem : Mem) (len : Nat) : Int → Nat → Int
  | _, 0 => -127
  | i, f+1 =>
    if i < (len : Int) then
      if mem i = star then i else naiveLoop mem len (i+1) f
    else -127

def test_naive (mem : Mem) (len : Nat) : Int :=
  naiveLoop mem len 0 (len + 1)

/-! ## test_twobyte : bytewise scan for `"*#"`; the C code decrements `len`
first and loops while `i < len - 1` -/

def twobyteLoop (mem : Mem) (len1 : Int) : Int → Nat → Int
  | _, 0 => -127
  | i, f+1 =>
    if i < len1 then
      if mem i = star ∧ mem (i+1) = hash then i else twobyteLoop mem len1 (i+1) f
    else -127

def test_twobyte (mem : Mem) (len : Nat) : Int :=
  twobyteLoop mem ((len : Int) - 1) 0 (len + 1)

/-! ## test_pure_sse2 : aligned 16-byte blocks only, first block masked -/

def pureSse2Loop (mem : Mem) (len : Nat) : Int → Nat → Nat → Int
  | _, _, 0 => -127
  | i, amask, f+1 =>
    if i < (len : Int) then
      let bits := mmask mem i star 16 &&& amask
      if bits ≠ 0 then
        let answer : Int := i + (ffs bits : Int) - 1
        if answer ≥ (len : Int) then -127 else answer
      else pureSse2Loop mem len (i+16) 0xffff f
    else -127

def test_pure_sse2 (mem : Mem) (addr len : Nat) : Int :=
  let last_bits := addr % 16
  pureSse2Loop mem len (-(last_bits : Int)) (0xffff <<< last_bits) (len + 16)

/-! ## test_sse2 : bytewise prologue to 16-byte alignment, then aligned
16-byte blocks -/

def sse2Loop (mem : Mem) (len : Nat) : Int → Nat → Int
  | _, 0 => -127
  | i, f+1 =>
    if i < (len : Int) then
      let bits := mmask mem i star 16
      if bits ≠ 0 then
        let answer : Int := i + (ffs bits : Int) - 1
        if answer ≥ (len : Int) then -127 else answer
      else sse2Loop mem len (i+16) f
    else -127

def sse2Post (mem : Mem) (len : Nat) (i : Int) : Int :=
  if i ≥ (len : Int) then -127 else sse2Loop mem len i (len + 16)

def sse2Pro (mem : Mem) (addr len : Nat) : Int → Nat → Int
  | _, 0 => -127
  | i, f+1 =>
    if i < (len : Int) then
      if mem i = star then i
      else
        if ((addr : Int) + (i+1)) % 16 = 0 then sse2Post mem len (i+1)
        else sse2Pro mem addr len (i+1) f
    else sse2Post mem len i

def test_sse2 (mem : Mem) (addr len : Nat) : Int :=
  sse2Pro mem addr len 0 (len + 1)

/-! ## test_mycroft4 : bytewise prologue to 4-byte alignment, then aligned
4-byte words tested with the borrow trick -/

def mycroft4Loop (mem : Mem) (len : Nat) : Int → Nat → Int
  | _, 0 => -127
  | i, f+1 =>
    if i < (len : Int) then
      let raw0 := wload mem i 4 ^^^ 0x2a2a2a2a
      let raw := ((raw0 + M32 - 0x01010101) % M32) &&& (raw0 ^^^ (M32 - 1)) &&& 0x80808080
      if raw ≠ 0 then
        let answer : Int := i + ((ffs raw >>> 3 : Nat) : Int) - 1
        if answer ≥ (len : Int) then -127 else answer
      else mycroft4Loop mem len (i+4) f
    else -127

def mycroft4Post (mem : Mem) (len : Nat) (i : Int) : Int :=
  if i ≥ (len : Int) then -127 else mycroft4Loop mem len i (len + 4)

def mycroft4Pro (mem : Mem) (addr len : Nat) : Int → Nat → Int
  | _, 0 => -127
  | i, f+1 =>
    if i < (len : Int) then
      if mem i = star then i
      else
        if ((addr : Int) + (i+1)) % 4 = 0 then mycroft4Post mem len (i+1)
        else mycroft4Pro mem addr len (i+1) f
    else mycroft4Post mem len i

def test_mycroft4 (mem : Mem) (addr len : Nat) : Int :=
  mycroft4Pro mem addr len 0 (len + 1)

/-! ## test_pure_mycroft4 : aligned 4-byte words only; the first word's
`highs` constant has the below-buffer lanes cleared -/

def pureMycroft4Loop (mem : Mem) (len : Nat) : Int → Nat → Nat → Int
  | _, _, 0 => -127
  | i, highs, f+1 =>
    if i < (len : Int) then
      let raw0 := wload mem i 4 ^^^ 0x2a2a2a2a
      let raw := ((raw0 + M32 - 0x01010101) % M32) &&& (raw0 ^^^ (M32 - 1)) &&& highs
      if raw ≠ 0 then
        let answer : Int := i + ((ffs raw >>> 3 : Nat) : Int) - 1
        if answer ≥ (len : Int) then -127 else answer
      else pureMycroft4Loop mem len (i+4) 0x80808080 f
    else -127

def test_pure_mycroft4 (mem : Mem) (addr len : Nat) : Int :=
  let last_bits := addr % 4
  pureMycroft4Loop mem len (-(last_bits : Int))
    ((0x80808080 <<< (last_bits <<< 3)) % M32) (len + 4)

/-! ## test_mycroft : bytewise prologue to 8-byte alignment, then aligned
8-byte words -/

def mycroftLoop (mem : Mem) (len : Nat) : Int → Nat → Int
  | _, 0 => -127
  | i, f+1 =>
    if i < (len : Int) then
      let raw0 := wload mem i 8 ^^^ 0x2a2a2a2a2a2a2a2a
      let raw := ((raw0 + M64 - 0x0101010101010101) % M64) &&&
        (raw0 ^^^ (M64 - 1)) &&& 0x8080808080808080
      if raw ≠ 0 then
        let answer : Int := i + ((ffs raw >>> 3 : Nat) : Int) - 1
        if answer ≥ (len : Int) then -127 else answer
      else mycroftLoop mem len (i+8) f
    else -127

def mycroftPost (mem : Mem) (len : Nat) (i : Int) : Int :=
  if i ≥ (len : Int) then -127 else mycroftLoop mem len i (len + 8)

def mycroftPro (mem : Mem) (addr len : Nat) : Int → Nat → Int
  | _, 0 => -127
  | i, f+1 =>
    if i < (len : Int) then
      if mem i = star then i
      else
        if ((addr : Int) + (i+1)) % 8 = 0 then mycroftPost mem len (i+1)
        else mycroftPro mem addr len (i+1) f
    else mycroftPost mem len i

def test_mycroft (mem : Mem) (addr len : Nat) : Int :=
  mycroftPro mem addr len 0 (len + 1)

/-! ## test_pure_mycroft : aligned 8-byte words only, masked first word -/

def pureMycroftLoop (mem : Mem) (len : Nat) : Int → Nat → Nat → Int
  | _, _, 0 => -127
  | i, highs, f+1 =>
    if i < (len : Int) then
      let raw0 := wload mem i 8 ^^^ 0x2a2a2a2a2a2a2a2a
      let raw := ((raw0 + M64 - 0x0101010101010101) % M64) &&&
        (raw0 ^^^ (M64 - 1)) &&& highs
      if raw ≠ 0 then
        let answer : Int := i + ((ffs raw >>> 3 : Nat) : Int) - 1
        if answer ≥ (len : Int) then -127 else answer
      else pureMycroftLoop mem len (i+8) 0x8080808080808080 f
    else -127

def test_pure_mycroft (mem : Mem) (addr len : Nat) : Int :=
  let last_bits := addr % 8
  pureMycroftLoop mem len (-(last_bits : Int))
    ((0x8080808080808080 <<< (last_bits <<< 3)) % M64) (len + 8)

/-! ## test_sse2_and_mycroft4 : bytewise prologue to 4-byte alignment,
4-byte words to 16-byte alignment, then 16-byte blocks (the last loop is
byte-for-byte the block loop of `test_sse2`) -/

def sam4Mid (mem : Mem) (addr len : Nat) : Int → Nat → Int
  | _, 0 => -127
  | i, f+1 =>
    if i < (len : Int) then
      let raw0 := wload mem i 4 ^^^ 0x2a2a2a2a
      let raw := ((raw0 + M32 - 0x01010101) % M32) &&& (raw0 ^^^ (M32 - 1)) &&& 0x80808080
      if raw ≠ 0 then
        let answer : Int := i + ((ffs raw >>> 3 : Nat) : Int) - 1
        if answer ≥ (len : Int) then -127 else answer
      else
        if ((addr : Int) + (i+4)) % 16 = 0 then sse2Post mem len (i+4)
        else sam4Mid mem addr len (i+4) f
    else sse2Post mem len i

def sam4Post (mem : Mem) (addr len : Nat) (i : Int) : Int :=
  if i ≥ (len : Int) then -127 else sam4Mid mem addr len i (len + 4)

def sam4Pro (mem : Mem) (addr len : Nat) : Int → Nat → Int
  | _, 0 => -127
  | i, f+1 =>
    if i < (len : Int) then
      if mem i = star then i
      else
        if ((addr : Int) + (i+1)) % 4 = 0 then sam4Post mem addr len (i+1)
        else sam4Pro mem addr len (i+1) f
    else sam4Post mem addr len i

def test_sse2_and_mycroft4 (mem : Mem) (addr len : Nat) : Int :=
  sam4Pro mem addr len 0 (len + 1)

/-! ## test_twosse2 : pair scan, bytewise prologue, 16-byte blocks, one
carried bit `prev` for pairs straddling a block boundary -/

def twosse2Loop (mem : Mem) (len : Nat) : Int → Nat → Nat → Int
  | _, _, 0 => -127
  | i, prev, f+1 =>
    if i < (len : Int) then
      let stars := mmask mem i star 16
      let hashes := mmask mem i hash 16
      if prev &&& 0x8000 ≠ 0 ∧ hashes &&& 1 ≠ 0 then i - 1
      else
        let combined := (stars <<< 1) &&& hashes
        if combined ≠ 0 then
          let result : Int := i + (ffs combined : Int) - 2
          if result ≥ (len : Int) - 1 then -127 else result
        else twosse2Loop mem len (i+16) stars f
    else -127

def twosse2Post (mem : Mem) (len : Nat) (i : Int) : Int :=
  if i ≥ (len : Int) - 1 then -127
  else twosse2Loop mem len i ((if mem (i-1) = star then 1 else 0) <<< 15) (len + 16)

def twosse2Pro (mem : Mem) (addr len : Nat) : Int → Nat → Int
  | _, 0 => -127
  | i, f+1 =>
    if i < (len : Int) - 1 then
      if mem i = star ∧ mem (i+1) = hash then i
      else
        if ((addr : Int) + (i+1)) % 16 = 0 then twosse2Post mem len (i+1)
        else twosse2Pro mem addr len (i+1) f
    else twosse2Post mem len i

def test_twosse2 (mem : Mem) (addr len : Nat) : Int :=
  twosse2Pro mem addr len 0 (len + 1)

/-! ## test_twobsse2 : pair scan with a rolling `stars` accumulator -/

def twobsse2Loop (mem : Mem) (len : Nat) : Int → Nat → Nat → Int
  | _, _, 0 => -127
  | i, stars0, f+1 =>
    if i < (len : Int) then
      let stars := stars0 + (mmask mem i star 16 <<< 1)
      let hashes := mmask mem i hash 16
      if hashes &&& stars ≠ 0 then
        let result : Int := i + (ffs (hashes &&& stars) : Int) - 2
        if result ≥ (len : Int) - 1 then -127 else result
      else twobsse2Loop mem len (i+16) (stars >>> 16) f
    else -127

def twobsse2Post (mem : Mem) (len : Nat) (i : Int) : Int :=
  if i ≥ (len : Int) - 1 then -127
  else twobsse2Loop mem len i (if mem (i-1) = star then 1 else 0) (len + 16)

def twobsse2Pro (mem : Mem) (addr len : Nat) : Int → Nat → Int
  | _, 0 => -127
  | i, f+1 =>
    if i < (len : Int) - 1 then
      if mem i = star ∧ mem (i+1) = hash then i
      else
        if ((addr : Int) + (i+1)) % 16 = 0 then twobsse2Post mem len (i+1)
        else twobsse2Pro mem addr len (i+1) f
    else twobsse2Post mem len i

def test_twobsse2 (mem : Mem) (addr len : Nat) : Int :=
  twobsse2Pro mem addr len 0 (len + 1)

/-! ## test_pure_twobsse2 : pair scan, aligned 16-byte blocks only, rolling
`stars` accumulator, first block's star mask masked by alignment -/

def pureTwobSse2Loop (mem : Mem) (len : Nat) : Int → Nat → Nat → Nat → Int
  | _, _, _, 0 => -127
  | i, stars0, amask, f+1 =>
    if i < (len : Int) then
      let stars := stars0 + ((mmask mem i star 16 &&& amask) <<< 1)
      let hashes := mmask mem i hash 16
      let combined := hashes &&& stars
      if combined ≠ 0 then
        let result : Int := i + (ffs combined : Int) - 2
        if result ≥ (len : Int) - 1 then -127 else result
      else pureTwobSse2Loop mem len (i+16) (stars >>> 16) 0xffff f
    else -127

def test_pure_twobsse2 (mem : Mem) (addr len : Nat) : Int :=
  let last_bits := addr % 16
  pureTwobSse2Loop mem len (-(last_bits : Int)) 0 (0xffff <<< last_bits) (len + 16)

/-! ## test_mycroft2 : pair scan, bytewise prologue to 8-byte alignment,
then two overlapping unaligned 8-byte loads per step at `i - 1` and `i` -/

def mycroft2Loop (mem : Mem) (len : Nat) : Int → Nat → Int
  | _, 0 => -127
  | i, f+1 =>
    if i < (len : Int) then
      let raw0 := wload mem (i-1) 8 ^^^ 0x2a2a2a2a2a2a2a2a
      let raw2a := wload mem i 8 ^^^ 0x2323232323232323
      let raw := ((raw0 + M64 - 0x0101010101010101) % M64) &&& (raw0 ^^^ (M64 - 1))
      let raw2 := ((raw2a + M64 - 0x0101010101010101) % M64) &&& (raw2a ^^^ (M64 - 1))
      let combined := raw &&& raw2 &&& 0x8080808080808080
      if combined ≠ 0 then
        let result : Int := (i-1) + ((ffs combined >>> 3 : Nat) : Int) - 1
        if result ≥ (len : Int) - 1 then -127 else result
      else mycroft2Loop mem len (i+8) f
    else -127

def mycroft2Post (mem : Mem) (len : Nat) (i : Int) : Int :=
  if i ≥ (len : Int) - 1 then -127 else mycroft2Loop mem len i (len + 8)

def mycroft2Pro (mem : Mem) (addr len : Nat) : Int → Nat → Int
  | _, 0 => -127
  | i, f+1 =>
    if i < (len : Int) - 1 then
      if mem i = star ∧ mem (i+1) = hash then i
      else
        if ((addr : Int) + (i+1)) % 8 = 0 then mycroft2Post mem len (i+1)
        else mycroft2Pro mem addr len (i+1) f
    else mycroft2Post mem len i

def test_mycroft2 (mem : Mem) (addr len : Nat) : Int :=
  mycroft2Pro mem addr len 0 (len + 1)

/-! ## test_pure_mycroft2 : pair scan, aligned 8-byte loads only, star flags
carried across blocks through `stars_low` -/

def pureMycroft2Loop (mem : Mem) (len : Nat) : Int → Nat → Nat → Nat → Int
  | _, _, _, 0 => -127
  | i, starsLow, highs, f+1 =>
    if i < (len : Int) then
      let raw := wload mem i 8
      let ns0 := raw ^^^ 0x2a2a2a2a2a2a2a2a
      let hs0 := raw ^^^ 0x2323232323232323
      let newStars := ((ns0 + M64 - 0x0101010101010101) % M64) &&&
        (ns0 ^^^ (M64 - 1)) &&& highs
      let hashes := ((hs0 + M64 - 0x0101010101010101) % M64) &&& (hs0 ^^^ (M64 - 1))
      let starsLow2 := (starsLow + ((newStars <<< 8) % M64)) % M64
      let combined := starsLow2 &&& hashes
      if combined ≠ 0 then
        let result : Int := (i-1) + ((ffs combined >>> 3 : Nat) : Int) - 1
        if result ≥ (len : Int) - 1 then -127 else result
      else pureMycroft2Loop mem len (i+8) (newStars >>> 56) 0x8080808080808080 f
    else -127

def test_pure_mycroft2 (mem : Mem) (addr len : Nat) : Int :=
  let last_bits := addr % 8
  pureMycroft2Loop mem len (-(last_bits : Int)) 0
    ((0x8080808080808080 <<< (last_bits <<< 3)) % M64) (len + 8)

/-! ## Concrete memories used for counterexamples, bug demonstrations and
witnesses -/

/-- memory holding the bytes of a list at offsets `0, 1, ...`, with `pad`
everywhere else (before the buffer and past the list) -/
def memOfList (l : List Nat) (pad : Nat) : Mem := fun i =>
  ⟨(if i < 0 then pad else l.getD i.toNat pad) % 256, Nat.mod_lt _ (by norm_num)⟩

/-- the 35-byte test string of the harness:
`"Now is the time *# for all good men"` -/
def memN : Mem :=
  memOfList [78, 111, 119, 32, 105, 115, 32, 116, 104, 101, 32, 116, 105, 109, 101, 32,
    42, 35, 32, 102, 111, 114, 32, 97, 108, 108, 32, 103, 111, 111, 100, 32, 109, 101, 110] 97

/-- a buffer whose byte just before the start is `'*'` (0x2a) and whose
first byte is `'+'` (0x2b); everything else is `'a'` -/
def memA : Mem := fun i => if i = -1 then 42 else if i = 0 then 43 else 97

/-- a buffer starting `'*' '+' '#'`, padded with `'a'` -/
def memB : Mem := memOfList [42, 43, 35] 97

/-- a buffer `'*' '+' '#' '*' '#' 'a'`, whose first genuine `"*#"` pair is at
index 3, padded with `'a'` -/
def memC : Mem := memOfList [42, 43, 35, 42, 35, 97] 97

/-! ## C6 : the bytewise scanners satisfy the spec contract -/

/-- contract for a single-byte scan result, transcribed from the spec:
either `-127` and no in-range byte equals `'*'`, or the smallest index in
`[0, len)` whose byte is `'*'` -/
def firstStarMatch (mem : Mem) (len : Nat) (r : Int) : Prop :=
  (r = -127 ∧ ∀ j : Int, 0 ≤ j → j < (len : Int) → mem j ≠ star) ∨
  (0 ≤ r ∧ r < (len : Int) ∧ mem r = star ∧
    ∀ j : Int, 0 ≤ j → j < r → mem j ≠ star)

/-- contract for a pair scan result, transcribed from the spec: either
`-127` and no index `j` with `j + 1 < len` carries the pair `"*#"`, or the
smallest such index -/
def firstPairMatch (mem : Mem) (len : Nat) (r : Int) : Prop :=
  (r = -127 ∧ ∀ j : Int, 0 ≤ j → j + 1 < (len : Int) →
    ¬(mem j = star ∧ mem (j+1) = hash)) ∨
  (0 ≤ r ∧ r + 1 < (len : Int) ∧ mem r = star ∧ mem (r+1) = hash ∧
    ∀ j : Int, 0 ≤ j → j < r → ¬(mem j = star ∧ mem (j+1) = hash))

lemma naiveLoop_firstStar (mem : Mem) (len : Nat) :
    ∀ (f : Nat) (i : Int), 0 ≤ i → (len : Int) - i ≤ f →
      (∀ j : Int, 0 ≤ j → j < i → mem j ≠ star) →
      firstStarMatch mem len (naiveLoop mem len i f) := by
  intro f
  induction f with
  | zero =>
    intro i h0 hf hpre
    exact Or.inl ⟨rfl, fun j hj hjl => hpre j hj (by omega)⟩
  | succ f ih =>
    intro i h0 hf hpre
    simp only [naiveLoop]
    split
    · rename_i hlt
      split
      · rename_i hstar
        exact Or.inr ⟨h0, hlt, hstar, hpre⟩
      · rename_i hnstar
        refine ih (i+1) (by omega) (by omega) ?_
        intro j hj hji
        have hsplit : j < i ∨ j = i := by omega
        rcases hsplit with h | h
        · exact hpre j hj h
        · rw [h]; exact hnstar
    · rename_i hge
      exact Or.inl ⟨rfl, fun j hj hjl => hpre j hj (by omega)⟩

lemma twobyteLoop_firstPair (mem : Mem) (len : Nat) :
    ∀ (f : Nat) (i : Int), 0 ≤ i → (len : Int) - 1 - i ≤ f →
      (∀ j : Int, 0 ≤ j → j < i → ¬(mem j = star ∧ mem (j+1) = hash)) →
      firstPairMatch mem len (twobyteLoop mem ((len : Int) - 1) i f) := by
  intro f
  induction f with
  | zero =>
    intro i h0 hf hpre
    exact Or.inl ⟨rfl, fun j hj hjl => hpre j hj (by omega)⟩
  | succ f ih =>
    intro i h0 hf hpre
    simp only [twobyteLoop]
    split
    · rename_i hlt
      split
      · rename_i hpair
        exact Or.inr ⟨h0, by omega, hpair.1, hpair.2, hpre⟩
      · rename_i hnpair
        refine ih (i+1) (by omega) (by omega) ?_
        intro j hj hji
        have hsplit : j < i ∨ j = i := by omega
        rcases hsplit with h | h
        · exact hpre j hj h
        · rw [h]; exact hnpair
    · rename_i hge
      exact Or.inl ⟨rfl, fun j hj hjl => hpre j hj (by omega)⟩

/-- C6: for every buffer, `test_naive` returns the smallest index in
`[0, len)` whose byte equals `'*'` (and `-127` when there is none), and
`test_twobyte` returns the smallest index `i` with `s[i] = '*'`,
`s[i+1] = '#'` and `i + 1 < len` (and `-127` when there is none). -/
theorem c6_bytewise_scanners_correct (mem : Mem) (len : Nat) :
    firstStarMatch mem len (test_naive mem len) ∧
    firstPairMatch mem len (test_twobyte mem len) := by
  constructor
  · exact naiveLoop_firstStar mem len (len + 1) 0 le_rfl (by omega)
      (fun j hj hji => absurd hji (by omega))
  · exact twobyteLoop_firstPair mem len (len + 1) 0 le_rfl (by omega)
      (fun j hj hji => absurd hji (by omega))

/-- C6 witness: the contract instantiated on the harness's 35-byte example
string. -/
theorem c6_bytewise_scanners_correct_witness :
    firstStarMatch memN 35 (test_naive memN 35) ∧
    firstPairMatch memN 35 (test_twobyte memN 35) :=
  c6_bytewise_scanners_correct memN 35

/-! ## C9 : the spec's worked example miscounts the string -/

/-- C9 counterexample: the spec example claims `scan1('*')` = 17,
`scan2('*','#')` = 17 on the 35-byte string, and `NotFound` on its first 17
bytes; all three assertions fail on the code (the `'*'` sits at index 16). -/
theorem c9_example_counterexample :
    ¬ (test_naive memN 35 = 17 ∧ test_twobyte memN 35 = 17 ∧
       test_naive memN 17 = -127) := by decide

/-- C9 amended: on `"Now is the time *# for all good men"` (35 bytes) the
single-byte scan and the pair scan both return 16, and the scan restricted
to the first 16 bytes (`"Now is the time "`) returns the not-found
sentinel. -/
theorem c9_example_amended :
    test_naive memN 35 = 16 ∧ test_twobyte memN 35 = 16 ∧
    test_naive memN 16 = -127 := by decide

/-! ## C2 : the pure Mycroft single-byte scanners disagree with the oracle -/

/-- C2 bug demonstration: with base address `≡ 1 (mod 4)`, the byte `'*'`
immediately before the buffer and the single buffer byte `'+'` (0x2b), both
`test_pure_mycroft4` and `test_pure_mycroft` report a match at index 0 even
though the buffer contains no `'*'`; `test_naive` correctly reports not
found.  The borrow of the Mycroft subtraction propagates from the masked-out
pre-buffer lane into the lane holding 0x2b and falsely sets its top bit. -/
theorem c2_pure_mycroft_bug :
    test_pure_mycroft4 memA 1 1 = 0 ∧ test_pure_mycroft memA 1 1 = 0 ∧
    test_naive memA 1 = -127 ∧ memA 0 ≠ star := by decide

/-! ## C1 : the Mycroft pair scanners disagree with the pair oracle -/

/-- C1 bug demonstration: on the buffer `"*+#aaaaaaa"` (length 10) with base
address `≡ 7 (mod 8)`, `test_mycroft2` returns 1 — claiming the pair
`"*#"` at index 1, where the bytes are actually `'+'` `'#'` — while the
oracle `test_twobyte` correctly returns -127.  The genuine `'*'` at index 0
sends a borrow through the lane of the `'+'` (0x2b = `'*'` + 1), falsely
flagging it as a star. -/
theorem c1_mycroft2_bug :
    test_mycroft2 memB 7 10 = 1 ∧ test_twobyte memB 10 = -127 ∧
    memB 1 ≠ star := by decide

/-! ## C5 : a pair scanner can miss the smallest genuine pair -/

/-- C5 bug demonstration: on the buffer `"*+#*#a"` (length 6, aligned base)
the smallest genuine `"*#"` pair is at index 3 and `test_twobyte` returns 3,
but `test_pure_mycroft2` returns 1, an index that does not even hold a
`'*'`. -/
theorem c5_pure_mycroft2_bug :
    test_pure_mycroft2 memC 0 6 = 1 ∧ test_twobyte memC 6 = 3 ∧
    memC 1 ≠ star ∧ memC 3 = star ∧ memC 4 = hash := by decide

/-! ## Properties of `ffs` and low-bit helper lemmas -/

lemma ctzF_eq : ∀ (k f x : Nat), k < f → x.testBit k = true →
    (∀ j, j < k → x.testBit j = false) → ctzF f x = k := by
  intro k
  induction k with
  | zero =>
    intro f x hf ht _
    cases f with
    | zero => omega
    | succ f =>
      have hx : x % 2 = 1 := by simpa using ht
      simp [ctzF, hx]
  | succ k ih =>
    intro f x hf ht hl
    cases f with
    | zero => omega
    | succ f =>
      have hx : ¬ x % 2 = 1 := by
        have h0 : x.testBit 0 = false := hl 0 (by omega)
        simpa using h0
      simp only [ctzF, if_neg hx]
      have hrec : ctzF f (x / 2) = k := by
        refine ih f (x / 2) (by omega) ?_ ?_
        · rw [Nat.testBit_div_two]; exact ht
        · intro j hj
          rw [Nat.testBit_div_two]
          exact hl (j + 1) (by omega)
      omega

lemma ffs_eq {x : Nat} (k : Nat) (ht : x.testBit k = true)
    (hl : ∀ j, j < k → x.testBit j = false) : ffs x = k + 1 := by
  have hx : x ≠ 0 := by
    intro h
    rw [h] at ht
    simp at ht
  unfold ffs
  rw [if_neg hx]
  have h1 : 2 ^ k ≤ x := Nat.testBit_implies_ge ht
  have h2 : k < 2 ^ k := Nat.lt_two_pow k
  rw [ctzF_eq k x x (by omega) ht hl]

lemma exists_lowest_bit : ∀ x : Nat, x ≠ 0 →
    ∃ k, x.testBit k = true ∧ ∀ j, j < k → x.testBit j = false := by
  intro x
  induction x using Nat.strong_induction_on with
  | _ x ih =>
    intro hx
    by_cases h2 : x % 2 = 1
    · exact ⟨0, by simpa using h2, fun j hj => absurd hj (Nat.not_lt_zero j)⟩
    · have hx2 : x / 2 ≠ 0 := by omega
      obtain ⟨k, hk, hl⟩ := ih (x / 2) (by omega) hx2
      refine ⟨k + 1, ?_, ?_⟩
      · rw [Nat.testBit_add_one]; exact hk
      · intro j hj
        cases j with
        | zero => simpa using h2
        | succ j => rw [Nat.testBit_add_one]; exact hl j (by omega)

lemma ffs_pos {x : Nat} (hx : x ≠ 0) : 1 ≤ ffs x := by
  unfold ffs
  rw [if_neg hx]
  omega

lemma ffs_ge {x : Nat} (p : Nat) (hx : x ≠ 0)
    (hl : ∀ j, j < p → x.testBit j = false) : p + 1 ≤ ffs x := by
  obtain ⟨k, hk, hkl⟩ := exists_lowest_bit x hx
  have hkp : p ≤ k := by
    by_contra h
    rw [hl k (by omega)] at hk
    exact Bool.false_ne_true hk
  rw [ffs_eq k hk hkl]
  omega

lemma ffs_shiftRight3_ge {x : Nat} (q : Nat) (hx : x ≠ 0)
    (hl : ∀ j, j < 8 * q + 7 → x.testBit j = false) : q + 1 ≤ ffs x >>> 3 := by
  have h := ffs_ge (8 * q + 7) hx hl
  rw [Nat.shiftRight_eq_div_pow]
  have h8 : (2 : Nat) ^ 3 = 8 := by norm_num
  rw [h8]
  omega

lemma low_bits_and_left {a : Nat} (x p : Nat)
    (h : ∀ j, j < p → a.testBit j = false) :
    ∀ j, j < p → (a &&& x).testBit j = false := by
  intro j hj
  simp [Nat.testBit_and, h j hj]

lemma low_bits_and_right {a : Nat} (x p : Nat)
    (h : ∀ j, j < p → a.testBit j = false) :
    ∀ j, j < p → (x &&& a).testBit j = false := by
  intro j hj
  simp [Nat.testBit_and, h j hj]

lemma low_bits_shiftLeft (x s p : Nat) (hp : p ≤ s) :
    ∀ j, j < p → (x <<< s).testBit j = false := by
  intro j hj
  simp only [Nat.testBit_shiftLeft]
  have : ¬ s ≤ j := by omega
  simp [this]

lemma low_bits_shiftLeft_of (x s p q : Nat) (hq : p ≤ s + q)
    (h : ∀ j, j < q → x.testBit j = false) :
    ∀ j, j < p → (x <<< s).testBit j = false := by
  intro j hj
  simp only [Nat.testBit_shiftLeft]
  by_cases hs : s ≤ j
  · simp [hs, h (j - s) (by omega)]
  · simp [hs]

lemma low_bits_mod_two_pow (x W p : Nat)
    (h : ∀ j, j < p → x.testBit j = false) :
    ∀ j, j < p → (x % 2 ^ W).testBit j = false := by
  intro j hj
  simp [Nat.testBit_mod_two_pow, h j hj]

lemma low_bits_add (a b p : Nat)
    (ha : ∀ j, j < p → a.testBit j = false)
    (hb : ∀ j, j < p → b.testBit j = false) :
    ∀ j, j < p → (a + b).testBit j = false := by
  have hma : a % 2 ^ p = 0 := by
    have := Nat.eq_of_testBit_eq (x := a % 2 ^ p) (y := 0) ?_
    · exact this
    · intro j
      simp only [Nat.zero_testBit, Nat.testBit_mod_two_pow]
      by_cases hj : j < p
      · simp [hj, ha j hj]
      · simp [hj]
  have hmb : b % 2 ^ p = 0 := by
    have := Nat.eq_of_testBit_eq (x := b % 2 ^ p) (y := 0) ?_
    · exact this
    · intro j
      simp only [Nat.zero_testBit, Nat.testBit_mod_two_pow]
      by_cases hj : j < p
      · simp [hj, hb j hj]
      · simp [hj]
  intro j hj
  have hab : (a + b) % 2 ^ p = 0 := by
    rw [Nat.add_mod, hma, hmb]
    simp
  have h1 : 2 ^ p * ((a + b) / 2 ^ p) = a + b := by
    have := Nat.div_add_mod (a + b) (2 ^ p)
    omega
  rw [← h1, Nat.testBit_mul_pow_two]
  have : ¬ p ≤ j := by omega
  simp [this]

lemma h32_low7 : ∀ j, j < 7 → (0x80808080 : Nat).testBit j = false := by decide

lemma h64_low7 : ∀ j, j < 7 → (0x8080808080808080 : Nat).testBit j = false := by decide

lemma h64_top_only : ∀ p, (0x8080808080808080 : Nat).testBit p = true → p % 8 = 7 := by
  intro p hp
  by_cases h : p < 64
  · exact (by decide :
      ∀ q, q < 64 → (0x8080808080808080 : Nat).testBit q = true → q % 8 = 7) p h hp
  · exfalso
    have hlt : (0x8080808080808080 : Nat) < 2 ^ p := by
      calc (0x8080808080808080 : Nat) < 2 ^ 64 := by norm_num
      _ ≤ 2 ^ p := Nat.pow_le_pow_right (by norm_num) (by omega)
    rw [Nat.testBit_lt_two_pow hlt] at hp
    exact Bool.false_ne_true hp

lemma M32_eq : M32 = 2 ^ 32 := by norm_num [M32]

lemma M64_eq : M64 = 2 ^ 64 := by norm_num [M64]

/-! ## Result-range lemmas : every scanner returns `-127` or an index in
`[0, len)` (for pair scanners even `index + 1 < len`) -/

/-- range contract of a single-byte scan result -/
def inRange1 (len : Nat) (r : Int) : Prop :=
  r = -127 ∨ (0 ≤ r ∧ r < (len : Int))

/-- range contract of a pair scan result -/
def inRange2 (len : Nat) (r : Int) : Prop :=
  r = -127 ∨ (0 ≤ r ∧ r + 1 < (len : Int))

lemma inRange2_to_inRange1 {len : Nat} {r : Int} (h : inRange2 len r) :
    inRange1 len r := by
  rcases h with h | ⟨h0, h1⟩
  · exact Or.inl h
  · exact Or.inr ⟨h0, by omega⟩

lemma naive_range (mem : Mem) (len : Nat) : inRange1 len (test_naive mem len) := by
  rcases naiveLoop_firstStar mem len (len + 1) 0 le_rfl (by omega)
      (fun j hj hji => absurd hji (by omega)) with ⟨h, _⟩ | ⟨h0, h1, _⟩
  · exact Or.inl h
  · exact Or.inr ⟨h0, h1⟩

lemma twobyte_range (mem : Mem) (len : Nat) : inRange2 len (test_twobyte mem len) := by
  rcases twobyteLoop_firstPair mem len (len + 1) 0 le_rfl (by omega)
      (fun j hj hji => absurd hji (by omega)) with ⟨h, _⟩ | ⟨h0, h1, _⟩
  · exact Or.inl h
  · exact Or.inr ⟨h0, h1⟩

lemma sse2Loop_range (mem : Mem) (len : Nat) :
    ∀ (f : Nat) (i : Int), 0 ≤ i → inRange1 len (sse2Loop mem len i f) := by
  intro f
  induction f with
  | zero => intro i h0; exact Or.inl rfl
  | succ f ih =>
    intro i h0
    simp only [sse2Loop]
    split
    · split
      · rename_i hbits
        split
        · exact Or.inl rfl
        · rename_i hlen
          have h1 : 1 ≤ ffs (mmask mem i star 16) := ffs_pos hbits
          exact Or.inr ⟨by omega, by omega⟩
      · exact ih (i + 16) (by omega)
    · exact Or.inl rfl

lemma sse2Post_range (mem : Mem) (len : Nat) (i : Int) (h0 : 0 ≤ i) :
    inRange1 len (sse2Post mem len i) := by
  unfold sse2Post
  split
  · exact Or.inl rfl
  · exact sse2Loop_range mem len _ i h0

lemma sse2Pro_range (mem : Mem) (addr len : Nat) :
    ∀ (f : Nat) (i : Int), 0 ≤ i → inRange1 len (sse2Pro mem addr len i f) := by
  intro f
  induction f with
  | zero => intro i h0; exact Or.inl rfl
  | succ f ih =>
    intro i h0
    simp only [sse2Pro]
    split
    · rename_i hlt
      split
      · exact Or.inr ⟨h0, hlt⟩
      · split
        · exact sse2Post_range mem len _ (by omega)
        · exact ih (i + 1) (by omega)
    · exact sse2Post_range mem len _ h0

lemma test_sse2_range (mem : Mem) (addr len : Nat) :
    inRange1 len (test_sse2 mem addr len) :=
  sse2Pro_range mem addr len (len + 1) 0 le_rfl

lemma pureSse2Loop_range (mem : Mem) (len : Nat) :
    ∀ (f : Nat) (i : Int) (amask p : Nat), p ≤ 16 → 0 ≤ i + p →
      (∀ j, j < p → amask.testBit j = false) →
      inRange1 len (pureSse2Loop mem len i amask f) := by
  intro f
  induction f with
  | zero => intro i amask p _ _ _; exact Or.inl rfl
  | succ f ih =>
    intro i amask p hp hip hmask
    simp only [pureSse2Loop]
    split
    · split
      · rename_i hbits
        split
        · exact Or.inl rfl
        · rename_i hlen
          have h1 := ffs_ge p hbits (low_bits_and_right _ p hmask)
          exact Or.inr ⟨by omega, by omega⟩
      · exact ih (i + 16) 0xffff 0 (by omega) (by omega)
          (fun j hj => absurd hj (by omega))
    · exact Or.inl rfl

lemma amask_low_bits (lb : Nat) :
    ∀ j, j < lb → ((0xffff : Nat) <<< lb).testBit j = false :=
  low_bits_shiftLeft 0xffff lb lb le_rfl

lemma test_pure_sse2_range (mem : Mem) (addr len : Nat) :
    inRange1 len (test_pure_sse2 mem addr len) := by
  simp only [test_pure_sse2]
  refine pureSse2Loop_range mem len (len + 16) _ _ (addr % 16)
    (by omega) (by omega) (amask_low_bits (addr % 16))

lemma mycroft4Loop_range (mem : Mem) (len : Nat) :
    ∀ (f : Nat) (i : Int), 0 ≤ i → inRange1 len (mycroft4Loop mem len i f) := by
  intro f
  induction f with
  | zero => intro i h0; exact Or.inl rfl
  | succ f ih =>
    intro i h0
    simp only [mycroft4Loop]
    split
    · split
      · rename_i hraw
        split
        · exact Or.inl rfl
        · rename_i hlen
          have h1 := ffs_shiftRight3_ge 0 hraw (low_bits_and_right _ 7 h32_low7)
          exact Or.inr ⟨by omega, by omega⟩
      · exact ih (i + 4) (by omega)
    · exact Or.inl rfl

lemma mycroft4Post_range (mem : Mem) (len : Nat) (i : Int) (h0 : 0 ≤ i) :
    inRange1 len (mycroft4Post mem len i) := by
  unfold mycroft4Post
  split
  · exact Or.inl rfl
  · exact mycroft4Loop_range mem len _ i h0

lemma mycroft4Pro_range (mem : Mem) (addr len : Nat) :
    ∀ (f : Nat) (i : Int), 0 ≤ i → inRange1 len (mycroft4Pro mem addr len i f) := by
  intro f
  induction f with
  | zero => intro i h0; exact Or.inl rfl
  | succ f ih =>
    intro i h0
    simp only [mycroft4Pro]
    split
    · rename_i hlt
      split
      · exact Or.inr ⟨h0, hlt⟩
      · split
        · exact mycroft4Post_range mem len _ (by omega)
        · exact ih (i + 1) (by omega)
    · exact mycroft4Post_range mem len _ h0

lemma test_mycroft4_range (mem : Mem) (addr len : Nat) :
    inRange1 len (test_mycroft4 mem addr len) :=
  mycroft4Pro_range mem addr len (len + 1) 0 le_rfl

lemma mycroftLoop_range (mem : Mem) (len : Nat) :
    ∀ (f : Nat) (i : Int), 0 ≤ i → inRange1 len (mycroftLoop mem len i f) := by
  intro f
  induction f with
  | zero => intro i h0; exact Or.inl rfl
  | succ f ih =>
    intro i h0
    simp only [mycroftLoop]
    split
    · split
      · rename_i hraw
        split
        · exact Or.inl rfl
        · rename_i hlen
          have h1 := ffs_shiftRight3_ge 0 hraw (low_bits_and_right _ 7 h64_low7)
          exact Or.inr ⟨by omega, by omega⟩
      · exact ih (i + 8) (by omega)
    · exact Or.inl rfl

lemma mycroftPost_range (mem : Mem) (len : Nat) (i : Int) (h0 : 0 ≤ i) :
    inRange1 len (mycroftPost mem len i) := by
  unfold mycroftPost
  split
  · exact Or.inl rfl
  · exact mycroftLoop_range mem len _ i h0

lemma mycroftPro_range (mem : Mem) (addr len : Nat) :
    ∀ (f : Nat) (i : Int), 0 ≤ i → inRange1 len (mycroftPro mem addr len i f) := by
  intro f
  induction f with
  | zero => intro i h0; exact Or.inl rfl
  | succ f ih =>
    intro i h0
    simp only [mycroftPro]
    split
    · rename_i hlt
      split
      · exact Or.inr ⟨h0, hlt⟩
      · split
        · exact mycroftPost_range mem len _ (by omega)
        · exact ih (i + 1) (by omega)
    · exact mycroftPost_range mem len _ h0

lemma test_mycroft_range (mem : Mem) (addr len : Nat) :
    inRange1 len (test_mycroft mem addr len) :=
  mycroftPro_range mem addr len (len + 1) 0 le_rfl

lemma sam4Mid_range (mem : Mem) (addr len : Nat) :
    ∀ (f : Nat) (i : Int), 0 ≤ i → inRange1 len (sam4Mid mem addr len i f) := by
  intro f
  induction f with
  | zero => intro i h0; exact Or.inl rfl
  | succ f ih =>
    intro i h0
    simp only [sam4Mid]
    split
    · split
      · rename_i hraw
        split
        · exact Or.inl rfl
        · rename_i hlen
          have h1 := ffs_shiftRight3_ge 0 hraw (low_bits_and_right _ 7 h32_low7)
          exact Or.inr ⟨by omega, by omega⟩
      · split
        · exact sse2Post_range mem len _ (by omega)
        · exact ih (i + 4) (by omega)
    · exact sse2Post_range mem len _ h0

lemma sam4Post_range (mem : Mem) (addr len : Nat) (i : Int) (h0 : 0 ≤ i) :
    inRange1 len (sam4Post mem addr len i) := by
  unfold sam4Post
  split
  · exact Or.inl rfl
  · exact sam4Mid_range mem addr len _ i h0

lemma sam4Pro_range (mem : Mem) (addr len : Nat) :
    ∀ (f : Nat) (i : Int), 0 ≤ i → inRange1 len (sam4Pro mem addr len i f) := by
  intro f
  induction f with
  | zero => intro i h0; exact Or.inl rfl
  | succ f ih =>
    intro i h0
    simp only [sam4Pro]
    split
    · rename_i hlt
      split
      · exact Or.inr ⟨h0, hlt⟩
      · split
        · exact sam4Post_range mem addr len _ (by omega)
        · exact ih (i + 1) (by omega)
    · exact sam4Post_range mem addr len _ h0

lemma test_sse2_and_mycroft4_range (mem : Mem) (addr len : Nat) :
    inRange1 len (test_sse2_and_mycroft4 mem addr len) :=
  sam4Pro_range mem addr len (len + 1) 0 le_rfl

lemma pureMycroft4Loop_range (mem : Mem) (len : Nat) :
    ∀ (f : Nat) (i : Int) (highs q : Nat), q ≤ 4 → 0 ≤ i + q →
      (∀ j, j < 8 * q + 7 → highs.testBit j = false) →
      inRange1 len (pureMycroft4Loop mem len i highs f) := by
  intro f
  induction f with
  | zero => intro i highs q _ _ _; exact Or.inl rfl
  | succ f ih =>
    intro i highs q hq hiq hhighs
    simp only [pureMycroft4Loop]
    split
    · split
      · rename_i hraw
        split
        · exact Or.inl rfl
        · rename_i hlen
          have h1 := ffs_shiftRight3_ge q hraw (low_bits_and_right _ (8 * q + 7) hhighs)
          exact Or.inr ⟨by omega, by omega⟩
      · exact ih (i + 4) 0x80808080 0 (by omega) (by omega)
          (fun j hj => h32_low7 j hj)
    · exact Or.inl rfl

lemma masked_highs32_low_bits (lb : Nat) :
    ∀ j, j < 8 * lb + 7 →
      (((0x80808080 : Nat) <<< (lb <<< 3)) % M32).testBit j = false := by
  rw [M32_eq]
  refine low_bits_mod_two_pow _ 32 _ ?_
  refine low_bits_shiftLeft_of 0x80808080 (lb <<< 3) (8 * lb + 7) 7 ?_ h32_low7
  rw [Nat.shiftLeft_eq]
  omega

lemma test_pure_mycroft4_range (mem : Mem) (addr len : Nat) :
    inRange1 len (test_pure_mycroft4 mem addr len) := by
  simp only [test_pure_mycroft4]
  exact pureMycroft4Loop_range mem len (len + 4) _ _ (addr % 4)
    (by omega) (by omega) (masked_highs32_low_bits (addr % 4))

lemma pureMycroftLoop_range (mem : Mem) (len : Nat) :
    ∀ (f : Nat) (i : Int) (highs q : Nat), q ≤ 8 → 0 ≤ i + q →
      (∀ j, j < 8 * q + 7 → highs.testBit j = false) →
      inRange1 len (pureMycroftLoop mem len i highs f) := by
  intro f
  induction f with
  | zero => intro i highs q _ _ _; exact Or.inl rfl
  | succ f ih =>
    intro i highs q hq hiq hhighs
    simp only [pureMycroftLoop]
    split
    · split
      · rename_i hraw
        split
        · exact Or.inl rfl
        · rename_i hlen
          have h1 := ffs_shiftRight3_ge q hraw (low_bits_and_right _ (8 * q + 7) hhighs)
          exact Or.inr ⟨by omega, by omega⟩
      · exact ih (i + 8) 0x8080808080808080 0 (by omega) (by omega)
          (fun j hj => h64_low7 j hj)
    · exact Or.inl rfl

lemma masked_highs64_low_bits (lb : Nat) :
    ∀ j, j < 8 * lb + 7 →
      (((0x8080808080808080 : Nat) <<< (lb <<< 3)) % M64).testBit j = false := by
  rw [M64_eq]
  refine low_bits_mod_two_pow _ 64 _ ?_
  refine low_bits_shiftLeft_of 0x8080808080808080 (lb <<< 3) (8 * lb + 7) 7 ?_ h64_low7
  rw [Nat.shiftLeft_eq]
  omega

lemma test_pure_mycroft_range (mem : Mem) (addr len : Nat) :
    inRange1 len (test_pure_mycroft mem addr len) := by
  simp only [test_pure_mycroft]
  exact pureMycroftLoop_range mem len (len + 8) _ _ (addr % 8)
    (by omega) (by omega) (masked_highs64_low_bits (addr % 8))

lemma twosse2Loop_range (mem : Mem) (len : Nat) :
    ∀ (f : Nat) (i : Int) (prev : Nat), 1 ≤ i →
      inRange2 len (twosse2Loop mem len i prev f) := by
  intro f
  induction f with
  | zero => intro i prev h1; exact Or.inl rfl
  | succ f ih =>
    intro i prev h1
    simp only [twosse2Loop]
    split
    · rename_i hguard
      split
      · exact Or.inr ⟨by omega, by omega⟩
      · split
        · rename_i hcomb
          split
          · exact Or.inl rfl
          · rename_i hlen
            have hff := ffs_ge 1 hcomb
              (low_bits_and_left _ 1 (low_bits_shiftLeft _ 1 1 le_rfl))
            exact Or.inr ⟨by omega, by omega⟩
        · exact ih (i + 16) _ (by omega)
    · exact Or.inl rfl

lemma twosse2Post_range (mem : Mem) (len : Nat) (i : Int)
    (h : 1 ≤ i ∨ (len : Int) - 1 ≤ i) : inRange2 len (twosse2Post mem len i) := by
  unfold twosse2Post
  split
  · exact Or.inl rfl
  · rename_i hlt
    exact twosse2Loop_range mem len _ i _ (by omega)

lemma twosse2Pro_range (mem : Mem) (addr len : Nat) :
    ∀ (f : Nat) (i : Int), 0 ≤ i → inRange2 len (twosse2Pro mem addr len i f) := by
  intro f
  induction f with
  | zero => intro i h0; exact Or.inl rfl
  | succ f ih =>
    intro i h0
    simp only [twosse2Pro]
    split
    · rename_i hlt
      split
      · exact Or.inr ⟨h0, by omega⟩
      · split
        · exact twosse2Post_range mem len _ (Or.inl (by omega))
        · exact ih (i + 1) (by omega)
    · rename_i hge
      exact twosse2Post_range mem len _ (Or.inr (by omega))

lemma test_twosse2_range (mem : Mem) (addr len : Nat) :
    inRange2 len (test_twosse2 mem addr len) :=
  twosse2Pro_range mem addr len (len + 1) 0 le_rfl

lemma twobsse2Loop_range (mem : Mem) (len : Nat) :
    ∀ (f : Nat) (i : Int) (stars0 : Nat), 1 ≤ i →
      inRange2 len (twobsse2Loop mem len i stars0 f) := by
  intro f
  induction f with
  | zero => intro i stars0 h1; exact Or.inl rfl
  | succ f ih =>
    intro i stars0 h1
    simp only [twobsse2Loop]
    split
    · rename_i hguard
      split
      · rename_i hcomb
        split
        · exact Or.inl rfl
        · rename_i hlen
          have hff := ffs_pos hcomb
          exact Or.inr ⟨by omega, by omega⟩
      · exact ih (i + 16) _ (by omega)
    · exact Or.inl rfl

lemma twobsse2Post_range (mem : Mem) (len : Nat) (i : Int)
    (h : 1 ≤ i ∨ (len : Int) - 1 ≤ i) : inRange2 len (twobsse2Post mem len i) := by
  unfold twobsse2Post
  split
  · exact Or.inl rfl
  · rename_i hlt
    exact twobsse2Loop_range mem len _ i _ (by omega)

lemma twobsse2Pro_range (mem : Mem) (addr len : Nat) :
    ∀ (f : Nat) (i : Int), 0 ≤ i → inRange2 len (twobsse2Pro mem addr len i f) := by
  intro f
  induction f with
  | zero => intro i h0; exact Or.inl rfl
  | succ f ih =>
    intro i h0
    simp only [twobsse2Pro]
    split
    · rename_i hlt
      split
      · exact Or.inr ⟨h0, by omega⟩
      · split
        · exact twobsse2Post_range mem len _ (Or.inl (by omega))
        · exact ih (i + 1) (by omega)
    · rename_i hge
      exact twobsse2Post_range mem len _ (Or.inr (by omega))

lemma test_twobsse2_range (mem : Mem) (addr len : Nat) :
    inRange2 len (test_twobsse2 mem addr len) :=
  twobsse2Pro_range mem addr len (len + 1) 0 le_rfl

lemma pureTwobSse2Loop_range (mem : Mem) (len : Nat) :
    ∀ (f : Nat) (i : Int) (stars0 amask q : Nat),
      (0 ≤ i - 1 ∨ (stars0 = 0 ∧ 0 ≤ i + q ∧ q ≤ 15 ∧
        (∀ j, j < q → amask.testBit j = false))) →
      inRange2 len (pureTwobSse2Loop mem len i stars0 amask f) := by
  intro f
  induction f with
  | zero => intro i stars0 amask q _; exact Or.inl rfl
  | succ f ih =>
    intro i stars0 amask q hD
    simp only [pureTwobSse2Loop]
    split
    · rename_i hguard
      split
      · rename_i hcomb
        split
        · exact Or.inl rfl
        · rename_i hlen
          rcases hD with hD | ⟨hz, hiq, hq15, hmask⟩
          · have hff := ffs_pos hcomb
            exact Or.inr ⟨by omega, by omega⟩
          · have hstars : ∀ j, j < q + 1 →
                (stars0 + ((mmask mem i star 16 &&& amask) <<< 1)).testBit j = false := by
              refine low_bits_add _ _ _ ?_ ?_
              · intro j hj
                rw [hz]
                exact Nat.zero_testBit j
              · exact low_bits_shiftLeft_of _ 1 (q + 1) q (by omega)
                  (low_bits_and_right _ q hmask)
            have hff := ffs_ge (q + 1) hcomb (low_bits_and_right _ (q + 1) hstars)
            exact Or.inr ⟨by omega, by omega⟩
      · refine ih (i + 16) _ 0xffff 0 (Or.inl ?_)
        rcases hD with hD | ⟨_, hiq, hq15, _⟩ <;> omega
    · exact Or.inl rfl

lemma test_pure_twobsse2_range (mem : Mem) (addr len : Nat) :
    inRange2 len (test_pure_twobsse2 mem addr len) := by
  simp only [test_pure_twobsse2]
  exact pureTwobSse2Loop_range mem len (len + 16) _ 0 _ (addr % 16)
    (Or.inr ⟨rfl, by omega, by omega, amask_low_bits (addr % 16)⟩)

lemma mycroft2Loop_range (mem : Mem) (len : Nat) :
    ∀ (f : Nat) (i : Int), 1 ≤ i → inRange2 len (mycroft2Loop mem len i f) := by
  intro f
  induction f with
  | zero => intro i h1; exact Or.inl rfl
  | succ f ih =>
    intro i h1
    simp only [mycroft2Loop]
    split
    · split
      · rename_i hcomb
        split
        · exact Or.inl rfl
        · rename_i hlen
          have hff := ffs_shiftRight3_ge 0 hcomb (low_bits_and_right _ 7 h64_low7)
          exact Or.inr ⟨by omega, by omega⟩
      · exact ih (i + 8) (by omega)
    · exact Or.inl rfl

lemma mycroft2Post_range (mem : Mem) (len : Nat) (i : Int)
    (h : 1 ≤ i ∨ (len : Int) - 1 ≤ i) : inRange2 len (mycroft2Post mem len i) := by
  unfold mycroft2Post
  split
  · exact Or.inl rfl
  · rename_i hlt
    exact mycroft2Loop_range mem len _ i (by omega)

lemma mycroft2Pro_range (mem : Mem) (addr len : Nat) :
    ∀ (f : Nat) (i : Int), 0 ≤ i → inRange2 len (mycroft2Pro mem addr len i f) := by
  intro f
  induction f with
  | zero => intro i h0; exact Or.inl rfl
  | succ f ih =>
    intro i h0
    simp only [mycroft2Pro]
    split
    · rename_i hlt
      split
      · exact Or.inr ⟨h0, by omega⟩
      · split
        · exact mycroft2Post_range mem len _ (Or.inl (by omega))
        · exact ih (i + 1) (by omega)
    · rename_i hge
      exact mycroft2Post_range mem len _ (Or.inr (by omega))

lemma test_mycroft2_range (mem : Mem) (addr len : Nat) :
    inRange2 len (test_mycroft2 mem addr len) :=
  mycroft2Pro_range mem addr len (len + 1) 0 le_rfl

lemma low_bits_mod_M64 (x p : Nat) (h : ∀ j, j < p → x.testBit j = false) :
    ∀ j, j < p → (x % M64).testBit j = false := by
  rw [M64_eq]
  exact low_bits_mod_two_pow x 64 p h

lemma masked_highs64_top_only (lb : Nat) :
    ∀ p, (((0x8080808080808080 : Nat) <<< (lb <<< 3)) % M64).testBit p = true →
      p % 8 = 7 := by
  intro p hp
  rw [M64_eq, Nat.testBit_mod_two_pow, Nat.testBit_shiftLeft] at hp
  simp only [Bool.and_eq_true, decide_eq_true_eq] at hp
  obtain ⟨hp64, hle, hbit⟩ := hp
  have h7 := h64_top_only _ hbit
  rw [Nat.shiftLeft_eq] at hle h7
  omega

lemma pureMycroft2Loop_range (mem : Mem) (len : Nat) :
    ∀ (f : Nat) (i : Int) (starsLow highs q : Nat),
      (∀ j, j < 7 → starsLow.testBit j = false) →
      (∀ p, highs.testBit p = true → p % 8 = 7) →
      (0 ≤ i - 1 ∨ (starsLow = 0 ∧ 0 ≤ i + q ∧ q ≤ 7 ∧
        (∀ j, j < 8 * q + 7 → highs.testBit j = false))) →
      inRange2 len (pureMycroft2Loop mem len i starsLow highs f) := by
  intro f
  induction f with
  | zero => intro i starsLow highs q _ _ _; exact Or.inl rfl
  | succ f ih =>
    intro i starsLow highs q hlow7 htop hD
    simp only [pureMycroft2Loop]
    split
    · rename_i hguard
      split
      · rename_i hcomb
        split
        · exact Or.inl rfl
        · rename_i hlen
          rcases hD with hD | ⟨hz, hiq, hq7, hhighs⟩
          · have hsl2 : ∀ j, j < 7 →
                ((starsLow + ((((((wload mem i 8 ^^^ 0x2a2a2a2a2a2a2a2a) + M64 -
                  0x0101010101010101) % M64) &&&
                  ((wload mem i 8 ^^^ 0x2a2a2a2a2a2a2a2a) ^^^ (M64 - 1)) &&& highs)
                  <<< 8) % M64)) % M64).testBit j = false := by
              refine low_bits_mod_M64 _ 7 ?_
              refine low_bits_add _ _ 7 hlow7 ?_
              exact low_bits_mod_M64 _ 7 (low_bits_shiftLeft _ 8 7 (by omega))
            have hff := ffs_shiftRight3_ge 0 hcomb (low_bits_and_left _ 7 hsl2)
            exact Or.inr ⟨by omega, by omega⟩
          · have hsl2 : ∀ j, j < 8 * (q + 1) + 7 →
                ((starsLow + ((((((wload mem i 8 ^^^ 0x2a2a2a2a2a2a2a2a) + M64 -
                  0x0101010101010101) % M64) &&&
                  ((wload mem i 8 ^^^ 0x2a2a2a2a2a2a2a2a) ^^^ (M64 - 1)) &&& highs)
                  <<< 8) % M64)) % M64).testBit j = false := by
              refine low_bits_mod_M64 _ _ ?_
              refine low_bits_add _ _ _ ?_ ?_
              · intro j hj
                rw [hz]
                exact Nat.zero_testBit j
              · refine low_bits_mod_M64 _ _ ?_
                refine low_bits_shiftLeft_of _ 8 (8 * (q + 1) + 7) (8 * q + 7)
                  (by omega) ?_
                exact low_bits_and_right _ (8 * q + 7) hhighs
            have hff := ffs_shiftRight3_ge (q + 1) hcomb (low_bits_and_left _ _ hsl2)
            exact Or.inr ⟨by omega, by omega⟩
      · refine ih (i + 8) _ 0x8080808080808080 0 ?_ h64_top_only (Or.inl ?_)
        · intro j hj
          rw [Nat.testBit_shiftRight]
          by_cases hb : ((((wload mem i 8 ^^^ 0x2a2a2a2a2a2a2a2a) + M64 -
              0x0101010101010101) % M64) &&&
              ((wload mem i 8 ^^^ 0x2a2a2a2a2a2a2a2a) ^^^ (M64 - 1)) &&&
              highs).testBit (56 + j) = true
          · exfalso
            have hhb : highs.testBit (56 + j) = true := by
              have := Nat.testBit_and
                ((((wload mem i 8 ^^^ 0x2a2a2a2a2a2a2a2a) + M64 -
                  0x0101010101010101) % M64) &&&
                  ((wload mem i 8 ^^^ 0x2a2a2a2a2a2a2a2a) ^^^ (M64 - 1)))
                highs (56 + j)
              rw [this, Bool.and_eq_true] at hb
              exact hb.2
            have := htop _ hhb
            omega
          · simpa using hb
        · rcases hD with hD | ⟨_, hiq, hq7, _⟩ <;> omega
    · exact Or.inl rfl

lemma test_pure_mycroft2_range (mem : Mem) (addr len : Nat) :
    inRange2 len (test_pure_mycroft2 mem addr len) := by
  simp only [test_pure_mycroft2]
  exact pureMycroft2Loop_range mem len (len + 8) _ 0 _ (addr % 8)
    (fun j _ => Nat.zero_testBit j) (masked_highs64_top_only (addr % 8))
    (Or.inr ⟨rfl, by omega, by omega, masked_highs64_low_bits (addr % 8)⟩)

/-- C7: every block-based scanner accepts a candidate only when it passes
the length clamp: each result is either the sentinel `-127` or an index `r`
with `0 ≤ r < len`, and for the pair scanners even `r + 1 < len`.  (The one
unclamped return path, the straddle branch of `test_twosse2`, can only
produce in-range candidates, which the `inRange2` bound for `test_twosse2`
certifies.) -/
theorem c7_candidates_clamped (mem : Mem) (addr len : Nat) :
    inRange1 len (test_pure_sse2 mem addr len) ∧
    inRange1 len (test_sse2 mem addr len) ∧
    inRange1 len (test_mycroft4 mem addr len) ∧
    inRange1 len (test_pure_mycroft4 mem addr len) ∧
    inRange1 len (test_mycroft mem addr len) ∧
    inRange1 len (test_pure_mycroft mem addr len) ∧
    inRange1 len (test_sse2_and_mycroft4 mem addr len) ∧
    inRange2 len (test_twosse2 mem addr len) ∧
    inRange2 len (test_twobsse2 mem addr len) ∧
    inRange2 len (test_pure_twobsse2 mem addr len) ∧
    inRange2 len (test_mycroft2 mem addr len) ∧
    inRange2 len (test_pure_mycroft2 mem addr len) :=
  ⟨test_pure_sse2_range mem addr len, test_sse2_range mem addr len,
   test_mycroft4_range mem addr len, test_pure_mycroft4_range mem addr len,
   test_mycroft_range mem addr len, test_pure_mycroft_range mem addr len,
   test_sse2_and_mycroft4_range mem addr len, test_twosse2_range mem addr len,
   test_twobsse2_range mem addr len, test_pure_twobsse2_range mem addr len,
   test_mycroft2_range mem addr len, test_pure_mycroft2_range mem addr len⟩

/-- C7 witness: the clamp contract instantiated on the harness's example
string with base address 7. -/
theorem c7_candidates_clamped_witness :
    inRange1 35 (test_pure_sse2 memN 7 35) ∧
    inRange1 35 (test_sse2 memN 7 35) ∧
    inRange1 35 (test_mycroft4 memN 7 35) ∧
    inRange1 35 (test_pure_mycroft4 memN 7 35) ∧
    inRange1 35 (test_mycroft memN 7 35) ∧
    inRange1 35 (test_pure_mycroft memN 7 35) ∧
    inRange1 35 (test_sse2_and_mycroft4 memN 7 35) ∧
    inRange2 35 (test_twosse2 memN 7 35) ∧
    inRange2 35 (test_twobsse2 memN 7 35) ∧
    inRange2 35 (test_pure_twobsse2 memN 7 35) ∧
    inRange2 35 (test_mycroft2 memN 7 35) ∧
    inRange2 35 (test_pure_mycroft2 memN 7 35) :=
  c7_candidates_clamped memN 7 35

/-- C8: every scanner, bytewise or block-based, returns either the sentinel
`-127` — which is negative and hence never a legal index — or an index in
`[0, len)`; no other negative value is ever returned. -/
theorem c8_sentinel_contract (mem : Mem) (addr len : Nat) :
    ((-127 : Int) < 0) ∧
    inRange1 len (test_naive mem len) ∧
    inRange1 len (test_twobyte mem len) ∧
    inRange1 len (test_pure_sse2 mem addr len) ∧
    inRange1 len (test_sse2 mem addr len) ∧
    inRange1 len (test_mycroft4 mem addr len) ∧
    inRange1 len (test_pure_mycroft4 mem addr len) ∧
    inRange1 len (test_mycroft mem addr len) ∧
    inRange1 len (test_pure_mycroft mem addr len) ∧
    inRange1 len (test_sse2_and_mycroft4 mem addr len) ∧
    inRange1 len (test_twosse2 mem addr len) ∧
    inRange1 len (test_twobsse2 mem addr len) ∧
    inRange1 len (test_pure_twobsse2 mem addr len) ∧
    inRange1 len (test_mycroft2 mem addr len) ∧
    inRange1 len (test_pure_mycroft2 mem addr len) :=
  ⟨by omega, naive_range mem len, inRange2_to_inRange1 (twobyte_range mem len),
   test_pure_sse2_range mem addr len, test_sse2_range mem addr len,
   test_mycroft4_range mem addr len, test_pure_mycroft4_range mem addr len,
   test_mycroft_range mem addr len, test_pure_mycroft_range mem addr len,
   test_sse2_and_mycroft4_range mem addr len,
   inRange2_to_inRange1 (test_twosse2_range mem addr len),
   inRange2_to_inRange1 (test_twobsse2_range mem addr len),
   inRange2_to_inRange1 (test_pure_twobsse2_range mem addr len),
   inRange2_to_inRange1 (test_mycroft2_range mem addr len),
   inRange2_to_inRange1 (test_pure_mycroft2_range mem addr len)⟩

/-- C8 witness: the sentinel contract instantiated on the example string
with base address 13. -/
theorem c8_sentinel_contract_witness :
    ((-127 : Int) < 0) ∧
    inRange1 35 (test_naive memN 35) ∧
    inRange1 35 (test_twobyte memN 35) ∧
    inRange1 35 (test_pure_sse2 memN 13 35) ∧
    inRange1 35 (test_sse2 memN 13 35) ∧
    inRange1 35 (test_mycroft4 memN 13 35) ∧
    inRange1 35 (test_pure_mycroft4 memN 13 35) ∧
    inRange1 35 (test_mycroft memN 13 35) ∧
    inRange1 35 (test_pure_mycroft memN 13 35) ∧
    inRange1 35 (test_sse2_and_mycroft4 memN 13 35) ∧
    inRange1 35 (test_twosse2 memN 13 35) ∧
    inRange1 35 (test_twobsse2 memN 13 35) ∧
    inRange1 35 (test_pure_twobsse2 memN 13 35) ∧
    inRange1 35 (test_mycroft2 memN 13 35) ∧
    inRange1 35 (test_pure_mycroft2 memN 13 35) :=
  c8_sentinel_contract memN 13 35

/-! ## C10 : the straddle branch of test_twosse2

`test_twosse2_straddle` runs the same algorithm as `test_twosse2` but
returns `some (i - 1)` exactly when the function returns through the
cross-block straddle branch (`(prev & 0x8000) && (hashes & 1)`), and `none`
when it returns through any other path. -/

def twosse2StraddleLoop (mem : Mem) (len : Nat) : Int → Nat → Nat → Option Int
  | _, _, 0 => none
  | i, prev, f+1 =>
    if i < (len : Int) then
      let stars := mmask mem i star 16
      let hashes := mmask mem i hash 16
      if prev &&& 0x8000 ≠ 0 ∧ hashes &&& 1 ≠ 0 then some (i - 1)
      else
        let combined := (stars <<< 1) &&& hashes
        if combined ≠ 0 then none
        else twosse2StraddleLoop mem len (i+16) stars f
    else none

def twosse2StraddlePost (mem : Mem) (len : Nat) (i : Int) : Option Int :=
  if i ≥ (len : Int) - 1 then none
  else twosse2StraddleLoop mem len i ((if mem (i-1) = star then 1 else 0) <<< 15) (len + 16)

def twosse2StraddlePro (mem : Mem) (addr len : Nat) : Int → Nat → Option Int
  | _, 0 => none
  | i, f+1 =>
    if i < (len : Int) - 1 then
      if mem i = star ∧ mem (i+1) = hash then none
      else
        if ((addr : Int) + (i+1)) % 16 = 0 then twosse2StraddlePost mem len (i+1)
        else twosse2StraddlePro mem addr len (i+1) f
    else twosse2StraddlePost mem len i

def test_twosse2_straddle (mem : Mem) (addr len : Nat) : Option Int :=
  twosse2StraddlePro mem addr len 0 (len + 1)

lemma mmask_testBit (mem : Mem) (t : Byte) :
    ∀ (w : Nat) (i : Int) (k : Nat),
      (mmask mem i t w).testBit k =
        (decide (k < w) && decide (mem (i + (k : Int)) = t)) := by
  intro w
  induction w with
  | zero =>
    intro i k
    simp [mmask]
  | succ w ih =>
    intro i k
    cases k with
    | zero =>
      simp only [mmask, Nat.testBit_zero]
      by_cases h : mem i = t
      · simp [h, Nat.add_mul_mod_self_left]
      · simp [h, Nat.add_mul_mod_self_left]
    | succ k =>
      have hdiv : ((if mem i = t then 1 else 0) + 2 * mmask mem (i+1) t w) / 2
          = mmask mem (i+1) t w := by
        by_cases h : mem i = t <;> simp [h, Nat.add_mul_div_left]
      rw [mmask, Nat.testBit_add_one, hdiv, ih (i+1) k]
      have h1 : i + 1 + (k : Int) = i + (((k : Nat) + 1 : Nat) : Int) := by
        push_cast
        ring
      rw [h1]
      congr 1
      simp only [decide_eq_decide]
      omega

lemma and_two_pow_15_ne {x : Nat} (h : x &&& 0x8000 ≠ 0) : x.testBit 15 = true := by
  by_contra hx
  rw [Bool.not_eq_true] at hx
  apply h
  apply Nat.eq_of_testBit_eq
  intro j
  rw [Nat.testBit_and, Nat.zero_testBit]
  have h15 : (0x8000 : Nat) = 2 ^ 15 := by norm_num
  rw [h15, Nat.testBit_two_pow]
  by_cases hj : 15 = j
  · subst hj
    simp [hx]
  · simp [hj]

lemma twosse2StraddleLoop_valid (mem : Mem) (len : Nat) :
    ∀ (f : Nat) (i : Int) (prev : Nat) (r : Int), 1 ≤ i →
      prev.testBit 15 = decide (mem (i - 1) = star) →
      twosse2StraddleLoop mem len i prev f = some r →
      0 ≤ r ∧ mem r = star ∧ mem (r + 1) = hash ∧ r + 1 < (len : Int) := by
  intro f
  induction f with
  | zero =>
    intro i prev r _ _ h
    simp [twosse2StraddleLoop] at h
  | succ f ih =>
    intro i prev r h1 hprev heq
    simp only [twosse2StraddleLoop] at heq
    split at heq
    · rename_i hguard
      split at heq
      · rename_i hstrad
        obtain ⟨hp, hh⟩ := hstrad
        have hr : i - 1 = r := Option.some.inj heq
        have hp15 := and_two_pow_15_ne hp
        rw [hprev] at hp15
        have hstar : mem (i - 1) = star := of_decide_eq_true hp15
        have hhash : mem i = hash := by
          rw [Nat.and_one_is_mod] at hh
          have ht0 : (mmask mem i hash 16).testBit 0 = true := by
            rw [Nat.testBit_zero]
            simpa using hh
          rw [mmask_testBit] at ht0
          simp only [Bool.and_eq_true, decide_eq_true_eq] at ht0
          simpa using ht0.2
        refine ⟨by omega, ?_, ?_, by omega⟩
        · rw [← hr]
          exact hstar
        · rw [← hr]
          have : i - 1 + 1 = i := by ring
          rw [this]
          exact hhash
      · split at heq
        · simp at heq
        · refine ih (i+16) (mmask mem i star 16) r (by omega) ?_ heq
          rw [mmask_testBit]
          have h15 : i + ((15 : Nat) : Int) = i + 16 - 1 := by
            push_cast
            ring
          rw [h15]
          simp
    · simp at heq

lemma twosse2StraddlePost_valid (mem : Mem) (len : Nat) (i r : Int)
    (h : 1 ≤ i ∨ (len : Int) - 1 ≤ i) :
    twosse2StraddlePost mem len i = some r →
    0 ≤ r ∧ mem r = star ∧ mem (r + 1) = hash ∧ r + 1 < (len : Int) := by
  unfold twosse2StraddlePost
  split
  · intro hc
    simp at hc
  · rename_i hlt
    intro heq
    refine twosse2StraddleLoop_valid mem len _ i _ r (by omega) ?_ heq
    by_cases hm : mem (i-1) = star
    · rw [if_pos hm, hm]
      decide
    · rw [if_neg hm]
      simp [hm]

lemma twosse2StraddlePro_valid (mem : Mem) (addr len : Nat) :
    ∀ (f : Nat) (i : Int) (r : Int), 0 ≤ i →
      twosse2StraddlePro mem addr len i f = some r →
      0 ≤ r ∧ mem r = star ∧ mem (r + 1) = hash ∧ r + 1 < (len : Int) := by
  intro f
  induction f with
  | zero =>
    intro i r _ h
    simp [twosse2StraddlePro] at h
  | succ f ih =>
    intro i r h0 heq
    simp only [twosse2StraddlePro] at heq
    split at heq
    · split at heq
      · simp at heq
      · split at heq
        · exact twosse2StraddlePost_valid mem len _ r (Or.inl (by omega)) heq
        · exact ih (i+1) r (by omega) heq
    · rename_i hge
      exact twosse2StraddlePost_valid mem len _ r (Or.inr (by omega)) heq

lemma twosse2StraddleLoop_agrees (mem : Mem) (len : Nat) :
    ∀ (f : Nat) (i : Int) (prev : Nat) (r : Int),
      twosse2StraddleLoop mem len i prev f = some r →
      twosse2Loop mem len i prev f = r := by
  intro f
  induction f with
  | zero =>
    intro i prev r h
    simp [twosse2StraddleLoop] at h
  | succ f ih =>
    intro i prev r heq
    simp only [twosse2StraddleLoop] at heq
    simp only [twosse2Loop]
    split at heq
    · rename_i hguard
      rw [if_pos hguard]
      split at heq
      · rename_i hstrad
        rw [if_pos hstrad]
        exact Option.some.inj heq
      · rename_i hstrad
        rw [if_neg hstrad]
        split at heq
        · simp at heq
        · rename_i hcomb
          rw [if_neg hcomb]
          exact ih (i+16) _ r heq
    · rename_i hguard
      rw [if_neg hguard]
      simp at heq

lemma twosse2StraddlePost_agrees (mem : Mem) (len : Nat) (i r : Int) :
    twosse2StraddlePost mem len i = some r → twosse2Post mem len i = r := by
  unfold twosse2StraddlePost twosse2Post
  split
  · intro h
    simp at h
  · exact twosse2StraddleLoop_agrees mem len _ i _ r

lemma twosse2StraddlePro_agrees (mem : Mem) (addr len : Nat) :
    ∀ (f : Nat) (i : Int) (r : Int),
      twosse2StraddlePro mem addr len i f = some r →
      twosse2Pro mem addr len i f = r := by
  intro f
  induction f with
  | zero =>
    intro i r h
    simp [twosse2StraddlePro] at h
  | succ f ih =>
    intro i r heq
    simp only [twosse2StraddlePro] at heq
    simp only [twosse2Pro]
    split at heq
    · rename_i hguard
      rw [if_pos hguard]
      split at heq
      · simp at heq
      · rename_i hpair
        rw [if_neg hpair]
        split at heq
        · rename_i halign
          rw [if_pos halign]
          exact twosse2StraddlePost_agrees mem len _ r heq
        · rename_i halign
          rw [if_neg halign]
          exact ih (i+1) r heq
    · rename_i hguard
      rw [if_neg hguard]
      exact twosse2StraddlePost_agrees mem len _ r heq

/-- C10: whenever `test_twosse2` returns through its cross-block straddle
branch (modelled by `test_twosse2_straddle` returning `some r`), the
returned value `r = i - 1` is a valid pair match even though that branch
applies no length clamp: `0 ≤ r`, byte `r` is `'*'`, byte `r + 1` is `'#'`,
`r + 1 < len`, and `test_twosse2` indeed returns `r`. -/
theorem c10_twosse2_straddle_valid (mem : Mem) (addr len : Nat) (r : Int)
    (h : test_twosse2_straddle mem addr len = some r) :
    0 ≤ r ∧ mem r = star ∧ mem (r + 1) = hash ∧ r + 1 < (len : Int) ∧
    test_twosse2 mem addr len = r := by
  have hv := twosse2StraddlePro_valid mem addr len (len + 1) 0 r le_rfl h
  have ha := twosse2StraddlePro_agrees mem addr len (len + 1) 0 r h
  exact ⟨hv.1, hv.2.1, hv.2.2.1, hv.2.2.2, ha⟩

/-- memory used for the C10 witness: `'*'` at offset 16, `'#'` at offset 17,
`'a'` everywhere else -/
def memS : Mem := fun i => if i = 16 then 42 else if i = 17 then 35 else 97

/-- C10 witness: with base address 15 and length 20, the pair at offsets
16/17 straddles the boundary of the two 16-byte blocks and `test_twosse2`
returns through the straddle branch with the valid match index 16. -/
theorem c10_twosse2_straddle_valid_witness :
    test_twosse2_straddle memS 15 20 = some 16 ∧
    (0 ≤ (16 : Int) ∧ memS 16 = star ∧ memS (16 + 1) = hash ∧ (16 : Int) + 1 < (20 : Nat) ∧
      test_twosse2 memS 15 20 = 16) :=
  ⟨by decide, c10_twosse2_straddle_valid memS 15 20 16 (by decide)⟩

/-! ## C3 : exact characterisation of the Mycroft borrow trick

The scanners compute `(x - ones) & ~x & highs` on a `w`-lane little-endian
word.  We analyse the formula lane by lane: `wval` recovers a word from its
byte lanes, `subB` performs the lane-wise subtraction of the `0x0101...01`
constant with explicit borrow threading, and `mlanes` gives the byte lanes
of the full masked expression. -/

/-- value of a little-endian list of byte lanes -/
def wval : List Nat → Nat
  | [] => 0
  | b :: bs => b + 256 * wval bs

/-- word-wide repetition of one byte: `repW 1 4 = 0x01010101`,
`repW 128 8 = 0x8080808080808080`, and so on -/
def repW (c : Nat) : Nat → Nat
  | 0 => 0
  | w+1 => c + 256 * repW c w

/-- byte lane `k` of a machine word -/
def byteAt (x k : Nat) : Nat := x / 256 ^ k % 256

/-- the Mycroft zero-byte mask `(x - ones) & ~x & highs` on a `w`-lane word,
computed in `8w`-bit arithmetic -/
def mycroftMask (w x : Nat) : Nat :=
  ((x + 256 ^ w - repW 1 w) % 256 ^ w) &&& (x ^^^ (256 ^ w - 1)) &&& repW 128 w

/-- little-endian byte lanes of `x` (`w` of them) -/
def toBytes : Nat → Nat → List Nat
  | 0, _ => []
  | w+1, x => x % 256 :: toBytes w (x / 256)

/-- lane list of `x - (ones + borrow-in)` with borrow threading -/
def subB : List Nat → Nat → List Nat
  | [], _ => []
  | b :: bs, br => (b + 256 - 1 - br) % 256 :: subB bs (if b < 1 + br then 1 else 0)

/-- borrow out of the lane-wise subtraction -/
def brOut : List Nat → Nat → Nat
  | [], br => br
  | b :: bs, br => brOut bs (if b < 1 + br then 1 else 0)

/-- byte lanes of the full expression `(x - ones) & ~x & highs` -/
def mlanes : List Nat → Nat → List Nat
  | [], _ => []
  | b :: bs, br =>
    (((b + 256 - 1 - br) % 256) &&& (255 - b) &&& 128) :: mlanes bs (if b < 1 + br then 1 else 0)

lemma wval_lt : ∀ (xs : List Nat), (∀ b ∈ xs, b < 256) → wval xs < 256 ^ xs.length := by
  intro xs
  induction xs with
  | nil => intro _; simp [wval]
  | cons b bs ih =>
    intro h
    have hb : b < 256 := h b (List.mem_cons_self b bs)
    have ht := ih (fun c hc => h c (List.mem_cons_of_mem b hc))
    simp only [wval, List.length_cons]
    have hp : (256 : Nat) ^ (bs.length + 1) = 256 ^ bs.length * 256 := pow_succ 256 bs.length
    omega

lemma repW_lt : ∀ (w c : Nat), c < 256 → repW c w < 256 ^ w := by
  intro w
  induction w with
  | zero => intro c _; simp [repW]
  | succ w ih =>
    intro c hc
    have ht := ih c hc
    simp only [repW]
    have hp : (256 : Nat) ^ (w + 1) = 256 ^ w * 256 := pow_succ 256 w
    omega

lemma subB_length : ∀ (xs : List Nat) (br : Nat), (subB xs br).length = xs.length := by
  intro xs
  induction xs with
  | nil => intro br; rfl
  | cons b bs ih => intro br; simp [subB, ih]

lemma subB_lt : ∀ (xs : List Nat) (br : Nat), ∀ b ∈ subB xs br, b < 256 := by
  intro xs
  induction xs with
  | nil => intro br b hb; simp [subB] at hb
  | cons c cs ih =>
    intro br b hb
    simp only [subB, List.mem_cons] at hb
    rcases hb with hb | hb
    · rw [hb]; exact Nat.mod_lt _ (by norm_num)
    · exact ih _ b hb

lemma brOut_le_one : ∀ (xs : List Nat) (br : Nat), br ≤ 1 → brOut xs br ≤ 1 := by
  intro xs
  induction xs with
  | nil => intro br h; exact h
  | cons b bs ih =>
    intro br h
    simp only [brOut]
    split
    · exact ih 1 le_rfl
    · exact ih 0 (by omega)

lemma subB_val : ∀ (xs : List Nat) (br : Nat), br ≤ 1 → (∀ b ∈ xs, b < 256) →
    wval (subB xs br) + repW 1 xs.length + br =
      wval xs + 256 ^ xs.length * brOut xs br := by
  intro xs
  induction xs with
  | nil => intro br _ _; simp [subB, wval, repW, brOut]
  | cons b bs ih =>
    intro br hbr h
    have hb : b < 256 := h b (List.mem_cons_self b bs)
    have hIH := fun br' hbr' => ih br' hbr' (fun c hc => h c (List.mem_cons_of_mem b hc))
    simp only [subB, wval, repW, brOut, List.length_cons]
    have hp : (256 : Nat) ^ (bs.length + 1) = 256 ^ bs.length * 256 := pow_succ 256 bs.length
    by_cases hc : b < 1 + br
    · rw [if_pos hc]
      have hlane : (b + 256 - 1 - br) % 256 = b + 255 - br := by omega
      have h1 := hIH 1 le_rfl
      have hb1 := brOut_le_one bs 1 le_rfl
      rcases Nat.le_one_iff_eq_zero_or_eq_one.mp hb1 with h0 | h0 <;>
        · rw [h0] at h1 ⊢
          omega
    · rw [if_neg hc]
      have hlane : (b + 256 - 1 - br) % 256 = b - 1 - br := by omega
      have h1 := hIH 0 (by omega)
      have hb1 := brOut_le_one bs 0 (by omega)
      rcases Nat.le_one_iff_eq_zero_or_eq_one.mp hb1 with h0 | h0 <;>
        · rw [h0] at h1 ⊢
          omega

lemma mycroft_sub_eq (xs : List Nat) (h : ∀ b ∈ xs, b < 256) :
    (wval xs + 256 ^ xs.length - repW 1 xs.length) % 256 ^ xs.length =
      wval (subB xs 0) := by
  have hv := subB_val xs 0 (by omega) h
  have hS : wval (subB xs 0) < 256 ^ xs.length := by
    have := wval_lt (subB xs 0) (subB_lt xs 0)
    rwa [subB_length] at this
  have hones : repW 1 xs.length < 256 ^ xs.length := repW_lt _ 1 (by norm_num)
  have hbo := brOut_le_one xs 0 (by omega)
  rcases Nat.le_one_iff_eq_zero_or_eq_one.mp hbo with h0 | h0
  · rw [h0] at hv
    have he : wval xs + 256 ^ xs.length - repW 1 xs.length =
        wval (subB xs 0) + 256 ^ xs.length := by omega
    rw [he, Nat.add_mod_right, Nat.mod_eq_of_lt hS]
  · rw [h0] at hv
    have he : wval xs + 256 ^ xs.length - repW 1 xs.length = wval (subB xs 0) := by
      omega
    rw [he, Nat.mod_eq_of_lt hS]

lemma split_bit (a A : Nat) (ha : a < 256) (j : Nat) :
    (a + 256 * A).testBit j = if j < 8 then a.testBit j else A.testBit (j - 8) := by
  have he : a + 256 * A = 2 ^ 8 * A + a := by ring
  rw [he, Nat.testBit_mul_pow_two_add A (by omega : a < 2 ^ 8) j]

lemma split_xor (a b A B : Nat) (ha : a < 256) (hb : b < 256) :
    (a + 256 * A) ^^^ (b + 256 * B) = (a ^^^ b) + 256 * (A ^^^ B) := by
  have ha8 : a < 2 ^ 8 := by omega
  have hb8 : b < 2 ^ 8 := by omega
  have hxor : a ^^^ b < 256 := by
    have h := Nat.xor_lt_two_pow ha8 hb8
    omega
  apply Nat.eq_of_testBit_eq
  intro j
  rw [Nat.testBit_xor, split_bit a A ha, split_bit b B hb, split_bit _ _ hxor]
  by_cases hj : j < 8
  · simp [hj, Nat.testBit_xor]
  · simp [hj, Nat.testBit_xor]

lemma split_and (a b A B : Nat) (ha : a < 256) (hb : b < 256) :
    (a + 256 * A) &&& (b + 256 * B) = (a &&& b) + 256 * (A &&& B) := by
  have hb8 : b < 2 ^ 8 := by omega
  have hand : a &&& b < 256 := by
    have h := Nat.and_lt_two_pow a hb8
    omega
  apply Nat.eq_of_testBit_eq
  intro j
  rw [Nat.testBit_and, split_bit a A ha, split_bit b B hb, split_bit _ _ hand]
  by_cases hj : j < 8
  · simp [hj, Nat.testBit_and]
  · simp [hj, Nat.testBit_and]

lemma xor255 : ∀ b : Nat, b < 256 → b ^^^ 255 = 255 - b := by decide

lemma mask_comp : ∀ (xs : List Nat) (br : Nat), br ≤ 1 → (∀ b ∈ xs, b < 256) →
    wval (subB xs br) &&& (wval xs ^^^ (256 ^ xs.length - 1)) &&& repW 128 xs.length =
      wval (mlanes xs br) := by
  intro xs
  induction xs with
  | nil => intro br _ _; simp [subB, wval, repW, mlanes]
  | cons b bs ih =>
    intro br hbr h
    have hb : b < 256 := h b (List.mem_cons_self b bs)
    have hIH := fun br' hbr' => ih br' hbr' (fun c hc => h c (List.mem_cons_of_mem b hc))
    simp only [subB, wval, repW, mlanes, List.length_cons]
    have hp : (256 : Nat) ^ (bs.length + 1) = 256 ^ bs.length * 256 := pow_succ 256 bs.length
    have hpos : 0 < (256 : Nat) ^ bs.length := pow_pos (by norm_num) _
    have hsplit1 : (256 : Nat) ^ (bs.length + 1) - 1 = 255 + 256 * (256 ^ bs.length - 1) := by
      omega
    have hlane : (b + 256 - 1 - br) % 256 < 256 := Nat.mod_lt _ (by norm_num)
    have hxb : b ^^^ 255 < 256 := by
      have h1 : b < 2 ^ 8 := by omega
      have h2 : (255 : Nat) < 2 ^ 8 := by norm_num
      have h3 := Nat.xor_lt_two_pow h1 h2
      omega
    have hand1 : (b + 256 - 1 - br) % 256 &&& (b ^^^ 255) < 256 := by
      have h1 : b ^^^ 255 < 2 ^ 8 := by omega
      have h2 := Nat.and_lt_two_pow ((b + 256 - 1 - br) % 256) h1
      omega
    rw [hsplit1, split_xor b 255 (wval bs) (256 ^ bs.length - 1) hb (by norm_num),
      split_and ((b + 256 - 1 - br) % 256) (b ^^^ 255) (wval (subB bs
        (if b < 1 + br then 1 else 0))) (wval bs ^^^ (256 ^ bs.length - 1)) hlane hxb,
      split_and ((b + 256 - 1 - br) % 256 &&& (b ^^^ 255)) 128
        (wval (subB bs (if b < 1 + br then 1 else 0)) &&&
          (wval bs ^^^ (256 ^ bs.length - 1))) (repW 128 bs.length) hand1
        (by norm_num : (128 : Nat) < 256),
      xor255 b hb]
    split
    · rw [hIH 1 le_rfl]
    · rw [hIH 0 (by omega)]

lemma mycroftMask_lanes (xs : List Nat) (h : ∀ b ∈ xs, b < 256) :
    mycroftMask xs.length (wval xs) = wval (mlanes xs 0) := by
  unfold mycroftMask
  rw [mycroft_sub_eq xs h]
  exact mask_comp xs 0 (by omega) h

lemma lane_nonzero : ∀ b : Nat, b < 256 → 1 ≤ b →
    ((b + 256 - 1 - 0) % 256) &&& (255 - b) &&& 128 = 0 := by decide

lemma mlanes_no_zero : ∀ (xs : List Nat), (∀ b ∈ xs, b < 256) →
    (∀ b ∈ xs, b ≠ 0) → wval (mlanes xs 0) = 0 := by
  intro xs
  induction xs with
  | nil => intro _ _; rfl
  | cons b bs ih =>
    intro h hnz
    have hb : b < 256 := h b (List.mem_cons_self b bs)
    have hb1 : 1 ≤ b := by
      have := hnz b (List.mem_cons_self b bs)
      omega
    simp only [mlanes, wval]
    rw [if_neg (by omega : ¬ b < 1 + 0)]
    rw [lane_nonzero b hb hb1]
    rw [ih (fun c hc => h c (List.mem_cons_of_mem b hc))
      (fun c hc => hnz c (List.mem_cons_of_mem b hc))]

lemma lane_zero_head : ((0 + 256 - 1 - 0) % 256) &&& (255 - 0) &&& 128 = 128 := by decide

lemma mlanes_first_zero : ∀ (z : Nat) (xs : List Nat), (∀ b ∈ xs, b < 256) →
    z < xs.length → xs.getD z 0 = 0 → (∀ j, j < z → xs.getD j 0 ≠ 0) →
    (wval (mlanes xs 0)).testBit (8 * z + 7) = true ∧
    (∀ j, j < 8 * z + 7 → (wval (mlanes xs 0)).testBit j = false) := by
  intro z
  induction z with
  | zero =>
    intro xs h hz hz0 _
    cases xs with
    | nil => simp at hz
    | cons b bs =>
      have hb0 : b = 0 := by simpa using hz0
      subst hb0
      simp only [mlanes, wval]
      rw [if_pos (by omega : (0 : Nat) < 1 + 0), lane_zero_head]
      constructor
      · rw [split_bit 128 _ (by norm_num) 7]
        rw [if_pos (by norm_num : (7 : Nat) < 8)]
        decide
      · intro j hj
        rw [split_bit 128 _ (by norm_num) j]
        rw [if_pos (by omega : j < 8)]
        revert hj
        revert j
        decide
  | succ z ih =>
    intro xs h hz hz0 hlow
    cases xs with
    | nil => simp at hz
    | cons b bs =>
      have hb : b < 256 := h b (List.mem_cons_self b bs)
      have hb1 : 1 ≤ b := by
        have := hlow 0 (by omega)
        simp only [List.getD] at this
        simp at this
        omega
      simp only [mlanes, wval]
      rw [if_neg (by omega : ¬ b < 1 + 0), lane_nonzero b hb hb1]
      have htail := ih bs (fun c hc => h c (List.mem_cons_of_mem b hc))
        (by simpa using hz) (by simpa using hz0)
        (fun j hj => by
          have := hlow (j + 1) (by omega)
          simpa using this)
      constructor
      · rw [split_bit 0 _ (by norm_num) (8 * (z + 1) + 7)]
        rw [if_neg (by omega : ¬ 8 * (z + 1) + 7 < 8)]
        have he : 8 * (z + 1) + 7 - 8 = 8 * z + 7 := by omega
        rw [he]
        exact htail.1
      · intro j hj
        rw [split_bit 0 _ (by norm_num) j]
        by_cases hj8 : j < 8
        · simp [hj8]
        · rw [if_neg hj8]
          exact htail.2 (j - 8) (by omega)

lemma toBytes_length : ∀ (w x : Nat), (toBytes w x).length = w := by
  intro w
  induction w with
  | zero => intro x; rfl
  | succ w ih => intro x; simp [toBytes, ih]

lemma toBytes_lt : ∀ (w x : Nat), ∀ b ∈ toBytes w x, b < 256 := by
  intro w
  induction w with
  | zero => intro x b hb; simp [toBytes] at hb
  | succ w ih =>
    intro x b hb
    simp only [toBytes, List.mem_cons] at hb
    rcases hb with hb | hb
    · rw [hb]; exact Nat.mod_lt _ (by norm_num)
    · exact ih (x / 256) b hb

lemma wval_toBytes : ∀ (w x : Nat), x < 256 ^ w → wval (toBytes w x) = x := by
  intro w
  induction w with
  | zero =>
    intro x hx
    simp only [pow_zero] at hx
    interval_cases x
    rfl
  | succ w ih =>
    intro x hx
    simp only [toBytes, wval]
    have hp : (256 : Nat) ^ (w + 1) = 256 ^ w * 256 := pow_succ 256 w
    have hdx : x / 256 < 256 ^ w := by
      apply Nat.div_lt_of_lt_mul
      omega
    rw [ih (x / 256) hdx]
    omega

lemma toBytes_getD : ∀ (w k x : Nat), k < w → (toBytes w x).getD k 0 = byteAt x k := by
  intro w
  induction w with
  | zero => intro k x hk; omega
  | succ w ih =>
    intro k x hk
    cases k with
    | zero =>
      simp [toBytes, byteAt]
    | succ k =>
      simp only [toBytes, List.getD_cons_succ]
      rw [ih k (x / 256) (by omega)]
      unfold byteAt
      rw [Nat.div_div_eq_div_mul]
      have he : 256 * 256 ^ k = 256 ^ (k + 1) := (pow_succ' 256 k).symm
      rw [he]

lemma shiftRight_xor (a b n : Nat) : (a ^^^ b) >>> n = (a >>> n) ^^^ (b >>> n) := by
  apply Nat.eq_of_testBit_eq
  intro j
  simp [Nat.testBit_shiftRight, Nat.testBit_xor]

lemma mod_two_pow_xor (a b p : Nat) :
    (a ^^^ b) % 2 ^ p = (a % 2 ^ p) ^^^ (b % 2 ^ p) := by
  apply Nat.eq_of_testBit_eq
  intro j
  by_cases hj : j < p
  · simp [Nat.testBit_mod_two_pow, Nat.testBit_xor, hj]
  · simp [Nat.testBit_mod_two_pow, Nat.testBit_xor, hj]

lemma byteAt_shift (z k : Nat) : byteAt z k = (z >>> (8 * k)) % 2 ^ 8 := by
  rw [byteAt, Nat.shiftRight_eq_div_pow]
  norm_num [pow_mul]

lemma byteAt_xor (x y k : Nat) : byteAt (x ^^^ y) k = byteAt x k ^^^ byteAt y k := by
  rw [byteAt_shift, byteAt_shift, byteAt_shift, shiftRight_xor, mod_two_pow_xor]

lemma byteAt_repW : ∀ (k w t : Nat), k < w → t < 256 → byteAt (repW t w) k = t := by
  intro k
  induction k with
  | zero =>
    intro w t hw ht
    cases w with
    | zero => omega
    | succ w =>
      simp only [repW, byteAt, pow_zero, Nat.div_one]
      rw [Nat.add_mul_mod_self_left]
      exact Nat.mod_eq_of_lt ht
  | succ k ih =>
    intro w t hw ht
    cases w with
    | zero => omega
    | succ w =>
      simp only [repW, byteAt]
      have hd : (t + 256 * repW t w) / 256 ^ (k + 1) = repW t w / 256 ^ k := by
        have he : 256 * 256 ^ k = 256 ^ (k + 1) := (pow_succ' 256 k).symm
        rw [← he, ← Nat.div_div_eq_div_mul]
        congr 1
        rw [Nat.add_mul_div_left _ _ (by norm_num : 0 < 256)]
        rw [Nat.div_eq_of_lt ht]
        omega
      rw [hd]
      have := ih w t (by omega) ht
      rw [byteAt] at this
      exact this

lemma mycroftMask4_formula (x : Nat) :
    mycroftMask 4 x =
      ((x + M32 - 0x01010101) % M32) &&& (x ^^^ (M32 - 1)) &&& 0x80808080 := by
  have h1 : repW 1 4 = 0x01010101 := by decide
  have h2 : repW 128 4 = 0x80808080 := by decide
  have h3 : (256 : Nat) ^ 4 = M32 := by norm_num [M32]
  rw [mycroftMask, h1, h2, h3]

lemma mycroftMask8_formula (x : Nat) :
    mycroftMask 8 x =
      ((x + M64 - 0x0101010101010101) % M64) &&& (x ^^^ (M64 - 1)) &&&
        0x8080808080808080 := by
  have h1 : repW 1 8 = 0x0101010101010101 := by decide
  have h2 : repW 128 8 = 0x8080808080808080 := by decide
  have h3 : (256 : Nat) ^ 8 = M64 := by norm_num [M64]
  rw [mycroftMask, h1, h2, h3]

/-- C3 counterexample: the mask is not per-lane exact.  For the 32-bit word
0xFFFF2B2A and target 0x2a, the lowest lane (byte 0x2a) matches, and the
borrow it produces also sets the top bit of lane 1 even though that lane
holds 0x2b ≠ 0x2a — a false-positive lane. -/
theorem c3_per_lane_counterexample :
    (mycroftMask 4 (0xFFFF2B2A ^^^ repW 0x2a 4)).testBit (8 * 1 + 7) = true ∧
    byteAt 0xFFFF2B2A 1 ≠ 0x2a := by decide

/-- C3 amended: XOR the word with the byte-repeated target and apply the
borrow test `(y - ones) & ~y & highs`.  The resulting mask is zero exactly
when no byte lane of `w` equals the target, and when lanes do match, the
lowest set bit of the mask sits at the top bit of the lowest matching lane
(so `ffs mask = 8z + 8` for `z` the first matching lane).  Lanes above the
first match may carry borrow-induced false positives, so the mask is not
per-lane exact — but it is exact in the two ways the scanners rely on. -/
theorem c3_mycroft_first_match (w x t : Nat) (hx : x < 256 ^ w) (ht : t < 256) :
    (mycroftMask w (x ^^^ repW t w) = 0 ↔ ∀ k, k < w → byteAt x k ≠ t) ∧
    (∀ z, z < w → byteAt x z = t → (∀ j, j < z → byteAt x j ≠ t) →
      ffs (mycroftMask w (x ^^^ repW t w)) = 8 * z + 8) := by
  have h256 : (256 : Nat) ^ w = 2 ^ (8 * w) := by
    rw [pow_mul]
    norm_num
  have hy : x ^^^ repW t w < 256 ^ w := by
    rw [h256]
    exact Nat.xor_lt_two_pow (h256 ▸ hx) (h256 ▸ repW_lt w t ht)
  have hby : ∀ k, k < w → (byteAt (x ^^^ repW t w) k = 0 ↔ byteAt x k = t) := by
    intro k hk
    rw [byteAt_xor, byteAt_repW k w t hk ht]
    constructor
    · intro h0
      exact Nat.xor_eq_zero.mp h0
    · intro he
      rw [he]
      exact Nat.xor_self t
  have hlt := toBytes_lt w (x ^^^ repW t w)
  have hlen := toBytes_length w (x ^^^ repW t w)
  have hmask : mycroftMask w (x ^^^ repW t w) =
      wval (mlanes (toBytes w (x ^^^ repW t w)) 0) := by
    have h := mycroftMask_lanes (toBytes w (x ^^^ repW t w)) hlt
    rw [hlen, wval_toBytes w _ hy] at h
    exact h
  have hgd : ∀ k, k < w →
      ((toBytes w (x ^^^ repW t w)).getD k 0 = 0 ↔ byteAt x k = t) := by
    intro k hk
    rw [toBytes_getD w k _ hk]
    exact hby k hk
  have hfirst : ∀ z, z < w → byteAt x z = t → (∀ j, j < z → byteAt x j ≠ t) →
      (wval (mlanes (toBytes w (x ^^^ repW t w)) 0)).testBit (8 * z + 7) = true ∧
      (∀ j, j < 8 * z + 7 →
        (wval (mlanes (toBytes w (x ^^^ repW t w)) 0)).testBit j = false) := by
    intro z hz hzt hzlow
    refine mlanes_first_zero z _ hlt (by omega) ((hgd z hz).mpr hzt) ?_
    intro j hj
    intro hj0
    exact hzlow j hj ((hgd j (by omega)).mp hj0)
  constructor
  · constructor
    · intro hm k hk hkt
      have hex : ∃ n, byteAt x n = t := ⟨k, hkt⟩
      have hzt := Nat.find_spec hex
      have hzk : Nat.find hex ≤ k := Nat.find_min' hex hkt
      have hzlow : ∀ j, j < Nat.find hex → byteAt x j ≠ t :=
        fun j hj => Nat.find_min hex hj
      have hfz := hfirst (Nat.find hex) (by omega) hzt hzlow
      rw [hmask] at hm
      rw [hm] at hfz
      simpa using hfz.1
    · intro hall
      rw [hmask]
      apply mlanes_no_zero _ hlt
      intro b hb
      obtain ⟨n, hn, hbn⟩ := List.mem_iff_getElem.mp hb
      intro hb0
      have hnw : n < w := by omega
      have hgeq : (toBytes w (x ^^^ repW t w)).getD n 0 = b := by
        rw [List.getD_eq_getElem _ _ hn, hbn]
      exact hall n hnw ((hgd n hnw).mp (by rw [hgeq, hb0]))
  · intro z hz hzt hzlow
    have hfz := hfirst z hz hzt hzlow
    rw [hmask]
    have he := ffs_eq (8 * z + 7) hfz.1 hfz.2
    omega

/-- C3 witness: the amended characterisation instantiated on the word
0x61612B2A (bytes `'*'`, `'+'`, `'a'`, `'a'`) and target `'*'` = 0x2a,
whose first matching lane is lane 0. -/
theorem c3_mycroft_first_match_witness :
    ((mycroftMask 4 (0x61612B2A ^^^ repW 0x2a 4) = 0 ↔
      ∀ k, k < 4 → byteAt 0x61612B2A k ≠ 0x2a) ∧
     (∀ z, z < 4 → byteAt 0x61612B2A z = 0x2a →
       (∀ j, j < z → byteAt 0x61612B2A j ≠ 0x2a) →
       ffs (mycroftMask 4 (0x61612B2A ^^^ repW 0x2a 4)) = 8 * z + 8)) ∧
    0x61612B2A < 256 ^ 4 ∧ 0x2a < 256 :=
  ⟨c3_mycroft_first_match 4 0x61612B2A 0x2a (by norm_num) (by norm_num),
   by norm_num, by norm_num⟩

/-! ## C4 : which memory the scanners read

Every scanner gets a loads twin that performs the same control flow and
records each memory access as a pair (offset, width).  `loadsOk` is the
amended safety property: every byte of every access lies in an aligned
block (of the access's width) that contains an in-bounds byte — or, when
`len = 0`, the block holding the buffer's base address.  `loadsOkClaim` is
the property exactly as the claim states it: each whole access lies inside
one aligned block of its width that contains an in-bounds byte. -/

/-- amended per-byte safety of a list of accesses -/
def loadsOk (addr len : Nat) (ls : List (Int × Nat)) : Prop :=
  ∀ (o : Int) (bw : Nat), (o, bw) ∈ ls → ∀ d : Nat, d < bw →
    0 ≤ (addr : Int) + o + d ∧
    ∃ j : Nat, (j < len ∨ (len = 0 ∧ j = 0)) ∧
      ((addr : Int) + o + d).toNat / bw = (addr + j) / bw

/-- the claim as stated: each access lies inside a single aligned block of
its width, and that block holds at least one in-bounds byte -/
def loadsOkClaim (addr len : Nat) (ls : List (Int × Nat)) : Prop :=
  ∀ (o : Int) (bw : Nat), (o, bw) ∈ ls →
    ∃ B : Nat, B % bw = 0 ∧ (B : Int) ≤ (addr : Int) + o ∧
      (addr : Int) + o + bw ≤ (B : Int) + bw ∧
      ∃ j : Nat, j < len ∧ B ≤ addr + j ∧ addr + j < B + bw

def naiveLoadsLoop (mem : Mem) (len : Nat) : Int → Nat → List (Int × Nat)
  | _, 0 => []
  | i, f+1 =>
    if i < (len : Int) then
      (i, 1) :: (if mem i = star then [] else naiveLoadsLoop mem len (i+1) f)
    else []

def test_naive_loads (mem : Mem) (len : Nat) : List (Int × Nat) :=
  naiveLoadsLoop mem len 0 (len + 1)

def twobyteLoadsLoop (mem : Mem) (len1 : Int) : Int → Nat → List (Int × Nat)
  | _, 0 => []
  | i, f+1 =>
    if i < len1 then
      (i, 1) ::
        (if mem i = star then
          (i+1, 1) :: (if mem (i+1) = hash then [] else twobyteLoadsLoop mem len1 (i+1) f)
        else twobyteLoadsLoop mem len1 (i+1) f)
    else []

def test_twobyte_loads (mem : Mem) (len : Nat) : List (Int × Nat) :=
  twobyteLoadsLoop mem ((len : Int) - 1) 0 (len + 1)

def pureSse2LoadsLoop (mem : Mem) (len : Nat) : Int → Nat → Nat → List (Int × Nat)
  | _, _, 0 => []
  | i, amask, f+1 =>
    if i < (len : Int) then
      (i, 16) :: (if mmask mem i star 16 &&& amask ≠ 0 then []
        else pureSse2LoadsLoop mem len (i+16) 0xffff f)
    else []

def test_pure_sse2_loads (mem : Mem) (addr len : Nat) : List (Int × Nat) :=
  let last_bits := addr % 16
  pureSse2LoadsLoop mem len (-(last_bits : Int)) (0xffff <<< last_bits) (len + 16)

lemma naiveLoadsLoop_ok (mem : Mem) (addr len : Nat) :
    ∀ (f : Nat) (i : Int), 0 ≤ i → loadsOk addr len (naiveLoadsLoop mem len i f) := by
  intro f
  induction f with
  | zero =>
    intro i _ o bw hl
    simp [naiveLoadsLoop] at hl
  | succ f ih =>
    intro i h0 o bw hl d hd
    simp only [naiveLoadsLoop] at hl
    split at hl
    · rename_i hguard
      rw [List.mem_cons] at hl
      rcases hl with hl | hl
      · rw [Prod.mk.injEq] at hl
        rw [hl.1, hl.2]
        rw [hl.2] at hd
        refine ⟨by omega, i.toNat, Or.inl (by omega), by omega⟩
      · split at hl
        · simp at hl
        · exact ih (i+1) (by omega) o bw hl d hd
    · simp at hl

lemma test_naive_loads_ok (mem : Mem) (addr len : Nat) :
    loadsOk addr len (test_naive_loads mem len) :=
  naiveLoadsLoop_ok mem addr len (len + 1) 0 le_rfl

lemma twobyteLoadsLoop_ok (mem : Mem) (addr len : Nat) :
    ∀ (f : Nat) (i : Int), 0 ≤ i →
      loadsOk addr len (twobyteLoadsLoop mem ((len : Int) - 1) i f) := by
  intro f
  induction f with
  | zero =>
    intro i _ o bw hl
    simp [twobyteLoadsLoop] at hl
  | succ f ih =>
    intro i h0 o bw hl d hd
    simp only [twobyteLoadsLoop] at hl
    split at hl
    · rename_i hguard
      rw [List.mem_cons] at hl
      rcases hl with hl | hl
      · rw [Prod.mk.injEq] at hl
        rw [hl.1, hl.2]
        rw [hl.2] at hd
        refine ⟨by omega, i.toNat, Or.inl (by omega), by omega⟩
      · split at hl
        · rw [List.mem_cons] at hl
          rcases hl with hl | hl
          · rw [Prod.mk.injEq] at hl
            rw [hl.1, hl.2]
            rw [hl.2] at hd
            refine ⟨by omega, (i+1).toNat, Or.inl (by omega), by omega⟩
          · split at hl
            · simp at hl
            · exact ih (i+1) (by omega) o bw hl d hd
        · exact ih (i+1) (by omega) o bw hl d hd
    · simp at hl

lemma test_twobyte_loads_ok (mem : Mem) (addr len : Nat) :
    loadsOk addr len (test_twobyte_loads mem len) :=
  twobyteLoadsLoop_ok mem addr len (len + 1) 0 le_rfl

lemma pureSse2LoadsLoop_ok (mem : Mem) (addr len : Nat) :
    ∀ (f : Nat) (i : Int) (amask : Nat),
      ((addr : Int) + i) % 16 = 0 → -16 < i → 0 ≤ (addr : Int) + i →
      loadsOk addr len (pureSse2LoadsLoop mem len i amask f) := by
  intro f
  induction f with
  | zero =>
    intro i amask _ _ _ o bw hl
    simp [pureSse2LoadsLoop] at hl
  | succ f ih =>
    intro i amask halign hgt haddr o bw hl d hd
    simp only [pureSse2LoadsLoop] at hl
    split at hl
    · rename_i hguard
      rw [List.mem_cons] at hl
      rcases hl with hl | hl
      · rw [Prod.mk.injEq] at hl
        rw [hl.1, hl.2]
        rw [hl.2] at hd
        refine ⟨by omega, ?_⟩
        by_cases hi : 0 ≤ i
        · exact ⟨i.toNat, Or.inl (by omega), by omega⟩
        · refine ⟨0, ?_, by omega⟩
          by_cases hlen : len = 0
          · exact Or.inr ⟨hlen, rfl⟩
          · exact Or.inl (by omega)
      · split at hl
        · simp at hl
        · exact ih (i+16) 0xffff (by omega) (by omega) (by omega) o bw hl d hd
    · simp at hl

lemma test_pure_sse2_loads_ok (mem : Mem) (addr len : Nat) :
    loadsOk addr len (test_pure_sse2_loads mem addr len) := by
  simp only [test_pure_sse2_loads]
  exact pureSse2LoadsLoop_ok mem addr len (len + 16) _ _ (by omega) (by omega) (by omega)

def sse2LoadsLoop (mem : Mem) (len : Nat) : Int → Nat → List (Int × Nat)
  | _, 0 => []
  | i, f+1 =>
    if i < (len : Int) then
      (i, 16) :: (if mmask mem i star 16 ≠ 0 then [] else sse2LoadsLoop mem len (i+16) f)
    else []

def sse2PostLoads (mem : Mem) (len : Nat) (i : Int) : List (Int × Nat) :=
  if i ≥ (len : Int) then [] else sse2LoadsLoop mem len i (len + 16)

def sse2ProLoads (mem : Mem) (addr len : Nat) : Int → Nat → List (Int × Nat)
  | _, 0 => []
  | i, f+1 =>
    if i < (len : Int) then
      (i, 1) :: (if mem i = star then []
        else if ((addr : Int) + (i+1)) % 16 = 0 then sse2PostLoads mem len (i+1)
        else sse2ProLoads mem addr len (i+1) f)
    else sse2PostLoads mem len i

def test_sse2_loads (mem : Mem) (addr len : Nat) : List (Int × Nat) :=
  sse2ProLoads mem addr len 0 (len + 1)

lemma sse2LoadsLoop_ok (mem : Mem) (addr len : Nat) :
    ∀ (f : Nat) (i : Int), ((addr : Int) + i) % 16 = 0 → 0 ≤ i →
      loadsOk addr len (sse2LoadsLoop mem len i f) := by
  intro f
  induction f with
  | zero =>
    intro i _ _ o bw hl
    simp [sse2LoadsLoop] at hl
  | succ f ih =>
    intro i halign h0 o bw hl d hd
    simp only [sse2LoadsLoop] at hl
    split at hl
    · rename_i hguard
      rw [List.mem_cons] at hl
      rcases hl with hl | hl
      · rw [Prod.mk.injEq] at hl
        rw [hl.1, hl.2]
        rw [hl.2] at hd
        exact ⟨by omega, i.toNat, Or.inl (by omega), by omega⟩
      · split at hl
        · simp at hl
        · exact ih (i+16) (by omega) (by omega) o bw hl d hd
    · simp at hl

lemma sse2PostLoads_ok (mem : Mem) (addr len : Nat) (i : Int)
    (h : (((addr : Int) + i) % 16 = 0 ∧ 0 ≤ i) ∨ (len : Int) ≤ i) :
    loadsOk addr len (sse2PostLoads mem len i) := by
  unfold sse2PostLoads
  split
  · intro o bw hl
    simp at hl
  · rename_i hlt
    rcases h with ⟨h1, h2⟩ | h1
    · exact sse2LoadsLoop_ok mem addr len _ i h1 h2
    · omega

lemma sse2ProLoads_ok (mem : Mem) (addr len : Nat) :
    ∀ (f : Nat) (i : Int), 0 ≤ i → loadsOk addr len (sse2ProLoads mem addr len i f) := by
  intro f
  induction f with
  | zero =>
    intro i _ o bw hl
    simp [sse2ProLoads] at hl
  | succ f ih =>
    intro i h0 o bw hl d hd
    simp only [sse2ProLoads] at hl
    split at hl
    · rename_i hguard
      rw [List.mem_cons] at hl
      rcases hl with hl | hl
      · rw [Prod.mk.injEq] at hl
        rw [hl.1, hl.2]
        rw [hl.2] at hd
        exact ⟨by omega, i.toNat, Or.inl (by omega), by omega⟩
      · split at hl
        · simp at hl
        · split at hl
          · rename_i halign
            exact sse2PostLoads_ok mem addr len _ (Or.inl ⟨halign, by omega⟩) o bw hl d hd
          · exact ih (i+1) (by omega) o bw hl d hd
    · rename_i hguard
      exact sse2PostLoads_ok mem addr len _ (Or.inr (by omega)) o bw hl d hd

lemma test_sse2_loads_ok (mem : Mem) (addr len : Nat) :
    loadsOk addr len (test_sse2_loads mem addr len) :=
  sse2ProLoads_ok mem addr len (len + 1) 0 le_rfl

def mycroft4LoadsLoop (mem : Mem) (len : Nat) : Int → Nat → List (Int × Nat)
  | _, 0 => []
  | i, f+1 =>
    if i < (len : Int) then
      (i, 4) ::
        (if (((wload mem i 4 ^^^ 0x2a2a2a2a) + M32 - 0x01010101) % M32) &&&
            ((wload mem i 4 ^^^ 0x2a2a2a2a) ^^^ (M32 - 1)) &&& 0x80808080 ≠ 0 then []
        else mycroft4LoadsLoop mem len (i+4) f)
    else []

def mycroft4PostLoads (mem : Mem) (len : Nat) (i : Int) : List (Int × Nat) :=
  if i ≥ (len : Int) then [] else mycroft4LoadsLoop mem len i (len + 4)

def mycroft4ProLoads (mem : Mem) (addr len : Nat) : Int → Nat → List (Int × Nat)
  | _, 0 => []
  | i, f+1 =>
    if i < (len : Int) then
      (i, 1) :: (if mem i = star then []
        else if ((addr : Int) + (i+1)) % 4 = 0 then mycroft4PostLoads mem len (i+1)
        else mycroft4ProLoads mem addr len (i+1) f)
    else mycroft4PostLoads mem len i

def test_mycroft4_loads (mem : Mem) (addr len : Nat) : List (Int × Nat) :=
  mycroft4ProLoads mem addr len 0 (len + 1)

lemma mycroft4LoadsLoop_ok (mem : Mem) (addr len : Nat) :
    ∀ (f : Nat) (i : Int), ((addr : Int) + i) % 4 = 0 → 0 ≤ i →
      loadsOk addr len (mycroft4LoadsLoop mem len i f) := by
  intro f
  induction f with
  | zero =>
    intro i _ _ o bw hl
    simp [mycroft4LoadsLoop] at hl
  | succ f ih =>
    intro i halign h0 o bw hl d hd
    simp only [mycroft4LoadsLoop] at hl
    split at hl
    · rename_i hguard
      rw [List.mem_cons] at hl
      rcases hl with hl | hl
      · rw [Prod.mk.injEq] at hl
        rw [hl.1, hl.2]
        rw [hl.2] at hd
        exact ⟨by omega, i.toNat, Or.inl (by omega), by omega⟩
      · split at hl
        · simp at hl
        · exact ih (i+4) (by omega) (by omega) o bw hl d hd
    · simp at hl

lemma mycroft4PostLoads_ok (mem : Mem) (addr len : Nat) (i : Int)
    (h : (((addr : Int) + i) % 4 = 0 ∧ 0 ≤ i) ∨ (len : Int) ≤ i) :
    loadsOk addr len (mycroft4PostLoads mem len i) := by
  unfold mycroft4PostLoads
  split
  · intro o bw hl
    simp at hl
  · rename_i hlt
    rcases h with ⟨h1, h2⟩ | h1
    · exact mycroft4LoadsLoop_ok mem addr len _ i h1 h2
    · omega

lemma mycroft4ProLoads_ok (mem : Mem) (addr len : Nat) :
    ∀ (f : Nat) (i : Int), 0 ≤ i →
      loadsOk addr len (mycroft4ProLoads mem addr len i f) := by
  intro f
  induction f with
  | zero =>
    intro i _ o bw hl
    simp [mycroft4ProLoads] at hl
  | succ f ih =>
    intro i h0 o bw hl d hd
    simp only [mycroft4ProLoads] at hl
    split at hl
    · rename_i hguard
      rw [List.mem_cons] at hl
      rcases hl with hl | hl
      · rw [Prod.mk.injEq] at hl
        rw [hl.1, hl.2]
        rw [hl.2] at hd
        exact ⟨by omega, i.toNat, Or.inl (by omega), by omega⟩
      · split at hl
        · simp at hl
        · split at hl
          · rename_i halign
            exact mycroft4PostLoads_ok mem addr len _ (Or.inl ⟨halign, by omega⟩) o bw hl d hd
          · exact ih (i+1) (by omega) o bw hl d hd
    · rename_i hguard
      exact mycroft4PostLoads_ok mem addr len _ (Or.inr (by omega)) o bw hl d hd

lemma test_mycroft4_loads_ok (mem : Mem) (addr len : Nat) :
    loadsOk addr len (test_mycroft4_loads mem addr len) :=
  mycroft4ProLoads_ok mem addr len (len + 1) 0 le_rfl

def mycroftLoadsLoop (mem : Mem) (len : Nat) : Int → Nat → List (Int × Nat)
  | _, 0 => []
  | i, f+1 =>
    if i < (len : Int) then
      (i, 8) ::
        (if (((wload mem i 8 ^^^ 0x2a2a2a2a2a2a2a2a) + M64 - 0x0101010101010101) % M64) &&&
            ((wload mem i 8 ^^^ 0x2a2a2a2a2a2a2a2a) ^^^ (M64 - 1)) &&&
            0x8080808080808080 ≠ 0 then []
        else mycroftLoadsLoop mem len (i+8) f)
    else []

def mycroftPostLoads (mem : Mem) (len : Nat) (i : Int) : List (Int × Nat) :=
  if i ≥ (len : Int) then [] else mycroftLoadsLoop mem len i (len + 8)

def mycroftProLoads (mem : Mem) (addr len : Nat) : Int → Nat → List (Int × Nat)
  | _, 0 => []
  | i, f+1 =>
    if i < (len : Int) then
      (i, 1) :: (if mem i = star then []
        else if ((addr : Int) + (i+1)) % 8 = 0 then mycroftPostLoads mem len (i+1)
        else mycroftProLoads mem addr len (i+1) f)
    else mycroftPostLoads mem len i

def test_mycroft_loads (mem : Mem) (addr len : Nat) : List (Int × Nat) :=
  mycroftProLoads mem addr len 0 (len + 1)

lemma mycroftLoadsLoop_ok (mem : Mem) (addr len : Nat) :
    ∀ (f : Nat) (i : Int), ((addr : Int) + i) % 8 = 0 → 0 ≤ i →
      loadsOk addr len (mycroftLoadsLoop mem len i f) := by
  intro f
  induction f with
  | zero =>
    intro i _ _ o bw hl
    simp [mycroftLoadsLoop] at hl
  | succ f ih =>
    intro i halign h0 o bw hl d hd
    simp only [mycroftLoadsLoop] at hl
    split at hl
    · rename_i hguard
      rw [List.mem_cons] at hl
      rcases hl with hl | hl
      · rw [Prod.mk.injEq] at hl
        rw [hl.1, hl.2]
        rw [hl.2] at hd
        exact ⟨by omega, i.toNat, Or.inl (by omega), by omega⟩
      · split at hl
        · simp at hl
        · exact ih (i+8) (by omega) (by omega) o bw hl d hd
    · simp at hl

lemma mycroftPostLoads_ok (mem : Mem) (addr len : Nat) (i : Int)
    (h : (((addr : Int) + i) % 8 = 0 ∧ 0 ≤ i) ∨ (len : Int) ≤ i) :
    loadsOk addr len (mycroftPostLoads mem len i) := by
  unfold mycroftPostLoads
  split
  · intro o bw hl
    simp at hl
  · rename_i hlt
    rcases h with ⟨h1, h2⟩ | h1
    · exact mycroftLoadsLoop_ok mem addr len _ i h1 h2
    · omega

lemma mycroftProLoads_ok (mem : Mem) (addr len : Nat) :
    ∀ (f : Nat) (i : Int), 0 ≤ i →
      loadsOk addr len (mycroftProLoads mem addr len i f) := by
  intro f
  induction f with
  | zero =>
    intro i _ o bw hl
    simp [mycroftProLoads] at hl
  | succ f ih =>
    intro i h0 o bw hl d hd
    simp only [mycroftProLoads] at hl
    split at hl
    · rename_i hguard
      rw [List.mem_cons] at hl
      rcases hl with hl | hl
      · rw [Prod.mk.injEq] at hl
        rw [hl.1, hl.2]
        rw [hl.2] at hd
        exact ⟨by omega, i.toNat, Or.inl (by omega), by omega⟩
      · split at hl
        · simp at hl
        · split at hl
          · rename_i halign
            exact mycroftPostLoads_ok mem addr len _ (Or.inl ⟨halign, by omega⟩) o bw hl d hd
          · exact ih (i+1) (by omega) o bw hl d hd
    · rename_i hguard
      exact mycroftPostLoads_ok mem addr len _ (Or.inr (by omega)) o bw hl d hd

lemma test_mycroft_loads_ok (mem : Mem) (addr len : Nat) :
    loadsOk addr len (test_mycroft_loads mem addr len) :=
  mycroftProLoads_ok mem addr len (len + 1) 0 le_rfl

def sam4MidLoads (mem : Mem) (addr len : Nat) : Int → Nat → List (Int × Nat)
  | _, 0 => []
  | i, f+1 =>
    if i < (len : Int) then
      (i, 4) ::
        (if (((wload mem i 4 ^^^ 0x2a2a2a2a) + M32 - 0x01010101) % M32) &&&
            ((wload mem i 4 ^^^ 0x2a2a2a2a) ^^^ (M32 - 1)) &&& 0x80808080 ≠ 0 then []
        else if ((addr : Int) + (i+4)) % 16 = 0 then sse2PostLoads mem len (i+4)
        else sam4MidLoads mem addr len (i+4) f)
    else sse2PostLoads mem len i

def sam4PostLoads (mem : Mem) (addr len : Nat) (i : Int) : List (Int × Nat) :=
  if i ≥ (len : Int) then [] else sam4MidLoads mem addr len i (len + 4)

def sam4ProLoads (mem : Mem) (addr len : Nat) : Int → Nat → List (Int × Nat)
  | _, 0 => []
  | i, f+1 =>
    if i < (len : Int) then
      (i, 1) :: (if mem i = star then []
        else if ((addr : Int) + (i+1)) % 4 = 0 then sam4PostLoads mem addr len (i+1)
        else sam4ProLoads mem addr len (i+1) f)
    else sam4PostLoads mem addr len i

def test_sse2_and_mycroft4_loads (mem : Mem) (addr len : Nat) : List (Int × Nat) :=
  sam4ProLoads mem addr len 0 (len + 1)

lemma sam4MidLoads_ok (mem : Mem) (addr len : Nat) :
    ∀ (f : Nat) (i : Int), ((addr : Int) + i) % 4 = 0 → 0 ≤ i →
      loadsOk addr len (sam4MidLoads mem addr len i f) := by
  intro f
  induction f with
  | zero =>
    intro i _ _ o bw hl
    simp [sam4MidLoads] at hl
  | succ f ih =>
    intro i halign h0 o bw hl d hd
    simp only [sam4MidLoads] at hl
    split at hl
    · rename_i hguard
      rw [List.mem_cons] at hl
      rcases hl with hl | hl
      · rw [Prod.mk.injEq] at hl
        rw [hl.1, hl.2]
        rw [hl.2] at hd
        exact ⟨by omega, i.toNat, Or.inl (by omega), by omega⟩
      · split at hl
        · simp at hl
        · split at hl
          · rename_i halign16
            exact sse2PostLoads_ok mem addr len _ (Or.inl ⟨halign16, by omega⟩) o bw hl d hd
          · exact ih (i+4) (by omega) (by omega) o bw hl d hd
    · rename_i hguard
      exact sse2PostLoads_ok mem addr len _ (Or.inr (by omega)) o bw hl d hd

lemma sam4PostLoads_ok (mem : Mem) (addr len : Nat) (i : Int)
    (h : (((addr : Int) + i) % 4 = 0 ∧ 0 ≤ i) ∨ (len : Int) ≤ i) :
    loadsOk addr len (sam4PostLoads mem addr len i) := by
  unfold sam4PostLoads
  split
  · intro o bw hl
    simp at hl
  · rename_i hlt
    rcases h with ⟨h1, h2⟩ | h1
    · exact sam4MidLoads_ok mem addr len _ i h1 h2
    · omega

lemma sam4ProLoads_ok (mem : Mem) (addr len : Nat) :
    ∀ (f : Nat) (i : Int), 0 ≤ i →
      loadsOk addr len (sam4ProLoads mem addr len i f) := by
  intro f
  induction f with
  | zero =>
    intro i _ o bw hl
    simp [sam4ProLoads] at hl
  | succ f ih =>
    intro i h0 o bw hl d hd
    simp only [sam4ProLoads] at hl
    split at hl
    · rename_i hguard
      rw [List.mem_cons] at hl
      rcases hl with hl | hl
      · rw [Prod.mk.injEq] at hl
        rw [hl.1, hl.2]
        rw [hl.2] at hd
        exact ⟨by omega, i.toNat, Or.inl (by omega), by omega⟩
      · split at hl
        · simp at hl
        · split at hl
          · rename_i halign
            exact sam4PostLoads_ok mem addr len _ (Or.inl ⟨halign, by omega⟩) o bw hl d hd
          · exact ih (i+1) (by omega) o bw hl d hd
    · rename_i hguard
      exact sam4PostLoads_ok mem addr len _ (Or.inr (by omega)) o bw hl d hd

lemma test_sse2_and_mycroft4_loads_ok (mem : Mem) (addr len : Nat) :
    loadsOk addr len (test_sse2_and_mycroft4_loads mem addr len) :=
  sam4ProLoads_ok mem addr len (len + 1) 0 le_rfl

def pureMycroft4LoadsLoop (mem : Mem) (len : Nat) : Int → Nat → Nat → List (Int × Nat)
  | _, _, 0 => []
  | i, highs, f+1 =>
    if i < (len : Int) then
      (i, 4) ::
        (if (((wload mem i 4 ^^^ 0x2a2a2a2a) + M32 - 0x01010101) % M32) &&&
            ((wload mem i 4 ^^^ 0x2a2a2a2a) ^^^ (M32 - 1)) &&& highs ≠ 0 then []
        else pureMycroft4LoadsLoop mem len (i+4) 0x80808080 f)
    else []

def test_pure_mycroft4_loads (mem : Mem) (addr len : Nat) : List (Int × Nat) :=
  let last_bits := addr % 4
  pureMycroft4LoadsLoop mem len (-(last_bits : Int))
    ((0x80808080 <<< (last_bits <<< 3)) % M32) (len + 4)

lemma pureMycroft4LoadsLoop_ok (mem : Mem) (addr len : Nat) :
    ∀ (f : Nat) (i : Int) (highs : Nat),
      ((addr : Int) + i) % 4 = 0 → -4 < i → 0 ≤ (addr : Int) + i →
      loadsOk addr len (pureMycroft4LoadsLoop mem len i highs f) := by
  intro f
  induction f with
  | zero =>
    intro i highs _ _ _ o bw hl
    simp [pureMycroft4LoadsLoop] at hl
  | succ f ih =>
    intro i highs halign hgt haddr o bw hl d hd
    simp only [pureMycroft4LoadsLoop] at hl
    split at hl
    · rename_i hguard
      rw [List.mem_cons] at hl
      rcases hl with hl | hl
      · rw [Prod.mk.injEq] at hl
        rw [hl.1, hl.2]
        rw [hl.2] at hd
        refine ⟨by omega, ?_⟩
        by_cases hi : 0 ≤ i
        · exact ⟨i.toNat, Or.inl (by omega), by omega⟩
        · refine ⟨0, ?_, by omega⟩
          by_cases hlen : len = 0
          · exact Or.inr ⟨hlen, rfl⟩
          · exact Or.inl (by omega)
      · split at hl
        · simp at hl
        · exact ih (i+4) 0x80808080 (by omega) (by omega) (by omega) o bw hl d hd
    · simp at hl

lemma test_pure_mycroft4_loads_ok (mem : Mem) (addr len : Nat) :
    loadsOk addr len (test_pure_mycroft4_loads mem addr len) := by
  simp only [test_pure_mycroft4_loads]
  exact pureMycroft4LoadsLoop_ok mem addr len (len + 4) _ _ (by omega) (by omega) (by omega)

def pureMycroftLoadsLoop (mem : Mem) (len : Nat) : Int → Nat → Nat → List (Int × Nat)
  | _, _, 0 => []
  | i, highs, f+1 =>
    if i < (len : Int) then
      (i, 8) ::
        (if (((wload mem i 8 ^^^ 0x2a2a2a2a2a2a2a2a) + M64 - 0x0101010101010101) % M64) &&&
            ((wload mem i 8 ^^^ 0x2a2a2a2a2a2a2a2a) ^^^ (M64 - 1)) &&& highs ≠ 0 then []
        else pureMycroftLoadsLoop mem len (i+8) 0x8080808080808080 f)
    else []

def test_pure_mycroft_loads (mem : Mem) (addr len : Nat) : List (Int × Nat) :=
  let last_bits := addr % 8
  pureMycroftLoadsLoop mem len (-(last_bits : Int))
    ((0x8080808080808080 <<< (last_bits <<< 3)) % M64) (len + 8)

lemma pureMycroftLoadsLoop_ok (mem : Mem) (addr len : Nat) :
    ∀ (f : Nat) (i : Int) (highs : Nat),
      ((addr : Int) + i) % 8 = 0 → -8 < i → 0 ≤ (addr : Int) + i →
      loadsOk addr len (pureMycroftLoadsLoop mem len i highs f) := by
  intro f
  induction f with
  | zero =>
    intro i highs _ _ _ o bw hl
    simp [pureMycroftLoadsLoop] at hl
  | succ f ih =>
    intro i highs halign hgt haddr o bw hl d hd
    simp only [pureMycroftLoadsLoop] at hl
    split at hl
    · rename_i hguard
      rw [List.mem_cons] at hl
      rcases hl with hl | hl
      · rw [Prod.mk.injEq] at hl
        rw [hl.1, hl.2]
        rw [hl.2] at hd
        refine ⟨by omega, ?_⟩
        by_cases hi : 0 ≤ i
        · exact ⟨i.toNat, Or.inl (by omega), by omega⟩
        · refine ⟨0, ?_, by omega⟩
          by_cases hlen : len = 0
          · exact Or.inr ⟨hlen, rfl⟩
          · exact Or.inl (by omega)
      · split at hl
        · simp at hl
        · exact ih (i+8) 0x8080808080808080 (by omega) (by omega) (by omega) o bw hl d hd
    · simp at hl

lemma test_pure_mycroft_loads_ok (mem : Mem) (addr len : Nat) :
    loadsOk addr len (test_pure_mycroft_loads mem addr len) := by
  simp only [test_pure_mycroft_loads]
  exact pureMycroftLoadsLoop_ok mem addr len (len + 8) _ _ (by omega) (by omega) (by omega)

def twosse2LoadsLoop (mem : Mem) (len : Nat) : Int → Nat → Nat → List (Int × Nat)
  | _, _, 0 => []
  | i, prev, f+1 =>
    if i < (len : Int) then
      (i, 16) ::
        (if prev &&& 0x8000 ≠ 0 ∧ mmask mem i hash 16 &&& 1 ≠ 0 then []
        else if (mmask mem i star 16 <<< 1) &&& mmask mem i hash 16 ≠ 0 then []
        else twosse2LoadsLoop mem len (i+16) (mmask mem i star 16) f)
    else []

def twosse2PostLoads (mem : Mem) (len : Nat) (i : Int) : List (Int × Nat) :=
  if i ≥ (len : Int) - 1 then []
  else (i-1, 1) ::
    twosse2LoadsLoop mem len i ((if mem (i-1) = star then 1 else 0) <<< 15) (len + 16)

def twosse2ProLoads (mem : Mem) (addr len : Nat) : Int → Nat → List (Int × Nat)
  | _, 0 => []
  | i, f+1 =>
    if i < (len : Int) - 1 then
      (i, 1) ::
        (if mem i = star then
          (i+1, 1) :: (if mem (i+1) = hash then []
            else if ((addr : Int) + (i+1)) % 16 = 0 then twosse2PostLoads mem len (i+1)
            else twosse2ProLoads mem addr len (i+1) f)
        else if ((addr : Int) + (i+1)) % 16 = 0 then twosse2PostLoads mem len (i+1)
        else twosse2ProLoads mem addr len (i+1) f)
    else twosse2PostLoads mem len i

def test_twosse2_loads (mem : Mem) (addr len : Nat) : List (Int × Nat) :=
  twosse2ProLoads mem addr len 0 (len + 1)

lemma twosse2LoadsLoop_ok (mem : Mem) (addr len : Nat) :
    ∀ (f : Nat) (i : Int) (prev : Nat), ((addr : Int) + i) % 16 = 0 → 1 ≤ i →
      loadsOk addr len (twosse2LoadsLoop mem len i prev f) := by
  intro f
  induction f with
  | zero =>
    intro i prev _ _ o bw hl
    simp [twosse2LoadsLoop] at hl
  | succ f ih =>
    intro i prev halign h1 o bw hl d hd
    simp only [twosse2LoadsLoop] at hl
    split at hl
    · rename_i hguard
      rw [List.mem_cons] at hl
      rcases hl with hl | hl
      · rw [Prod.mk.injEq] at hl
        rw [hl.1, hl.2]
        rw [hl.2] at hd
        exact ⟨by omega, i.toNat, Or.inl (by omega), by omega⟩
      · split at hl
        · simp at hl
        · split at hl
          · simp at hl
          · exact ih (i+16) _ (by omega) (by omega) o bw hl d hd
    · simp at hl

lemma twosse2PostLoads_ok (mem : Mem) (addr len : Nat) (i : Int)
    (h : (((addr : Int) + i) % 16 = 0 ∧ 1 ≤ i) ∨ (len : Int) - 1 ≤ i) :
    loadsOk addr len (twosse2PostLoads mem len i) := by
  unfold twosse2PostLoads
  split
  · intro o bw hl
    simp at hl
  · rename_i hlt
    rcases h with ⟨h1, h2⟩ | h1
    · intro o bw hl d hd
      rw [List.mem_cons] at hl
      rcases hl with hl | hl
      · rw [Prod.mk.injEq] at hl
        rw [hl.1, hl.2]
        rw [hl.2] at hd
        exact ⟨by omega, (i-1).toNat, Or.inl (by omega), by omega⟩
      · exact twosse2LoadsLoop_ok mem addr len _ i _ h1 h2 o bw hl d hd
    · omega

lemma twosse2ProLoads_ok (mem : Mem) (addr len : Nat) :
    ∀ (f : Nat) (i : Int), 0 ≤ i →
      loadsOk addr len (twosse2ProLoads mem addr len i f) := by
  intro f
  induction f with
  | zero =>
    intro i _ o bw hl
    simp [twosse2ProLoads] at hl
  | succ f ih =>
    intro i h0 o bw hl d hd
    simp only [twosse2ProLoads] at hl
    split at hl
    · rename_i hguard
      rw [List.mem_cons] at hl
      rcases hl with hl | hl
      · rw [Prod.mk.injEq] at hl
        rw [hl.1, hl.2]
        rw [hl.2] at hd
        exact ⟨by omega, i.toNat, Or.inl (by omega), by omega⟩
      · split at hl
        · rw [List.mem_cons] at hl
          rcases hl with hl | hl
          · rw [Prod.mk.injEq] at hl
            rw [hl.1, hl.2]
            rw [hl.2] at hd
            exact ⟨by omega, (i+1).toNat, Or.inl (by omega), by omega⟩
          · split at hl
            · simp at hl
            · split at hl
              · rename_i halign
                exact twosse2PostLoads_ok mem addr len _ (Or.inl ⟨halign, by omega⟩) o bw hl d hd
              · exact ih (i+1) (by omega) o bw hl d hd
        · split at hl
          · rename_i halign
            exact twosse2PostLoads_ok mem addr len _ (Or.inl ⟨halign, by omega⟩) o bw hl d hd
          · exact ih (i+1) (by omega) o bw hl d hd
    · rename_i hguard
      exact twosse2PostLoads_ok mem addr len _ (Or.inr (by omega)) o bw hl d hd

lemma test_twosse2_loads_ok (mem : Mem) (addr len : Nat) :
    loadsOk addr len (test_twosse2_loads mem addr len) :=
  twosse2ProLoads_ok mem addr len (len + 1) 0 le_rfl

def twobsse2LoadsLoop (mem : Mem) (len : Nat) : Int → Nat → Nat → List (Int × Nat)
  | _, _, 0 => []
  | i, stars0, f+1 =>
    if i < (len : Int) then
      (i, 16) ::
        (if mmask mem i hash 16 &&& (stars0 + (mmask mem i star 16 <<< 1)) ≠ 0 then []
        else twobsse2LoadsLoop mem len (i+16) ((stars0 + (mmask mem i star 16 <<< 1)) >>> 16) f)
    else []

def twobsse2PostLoads (mem : Mem) (len : Nat) (i : Int) : List (Int × Nat) :=
  if i ≥ (len : Int) - 1 then []
  else (i-1, 1) ::
    twobsse2LoadsLoop mem len i (if mem (i-1) = star then 1 else 0) (len + 16)

def twobsse2ProLoads (mem : Mem) (addr len : Nat) : Int → Nat → List (Int × Nat)
  | _, 0 => []
  | i, f+1 =>
    if i < (len : Int) - 1 then
      (i, 1) ::
        (if mem i = star then
          (i+1, 1) :: (if mem (i+1) = hash then []
            else if ((addr : Int) + (i+1)) % 16 = 0 then twobsse2PostLoads mem len (i+1)
            else twobsse2ProLoads mem addr len (i+1) f)
        else if ((addr : Int) + (i+1)) % 16 = 0 then twobsse2PostLoads mem len (i+1)
        else twobsse2ProLoads mem addr len (i+1) f)
    else twobsse2PostLoads mem len i

def test_twobsse2_loads (mem : Mem) (addr len : Nat) : List (Int × Nat) :=
  twobsse2ProLoads mem addr len 0 (len + 1)

lemma twobsse2LoadsLoop_ok (mem : Mem) (addr len : Nat) :
    ∀ (f : Nat) (i : Int) (stars0 : Nat), ((addr : Int) + i) % 16 = 0 → 1 ≤ i →
      loadsOk addr len (twobsse2LoadsLoop mem len i stars0 f) := by
  intro f
  induction f with
  | zero =>
    intro i stars0 _ _ o bw hl
    simp [twobsse2LoadsLoop] at hl
  | succ f ih =>
    intro i stars0 halign h1 o bw hl d hd
    simp only [twobsse2LoadsLoop] at hl
    split at hl
    · rename_i hguard
      rw [List.mem_cons] at hl
      rcases hl with hl | hl
      · rw [Prod.mk.injEq] at hl
        rw [hl.1, hl.2]
        rw [hl.2] at hd
        exact ⟨by omega, i.toNat, Or.inl (by omega), by omega⟩
      · split at hl
        · simp at hl
        · exact ih (i+16) _ (by omega) (by omega) o bw hl d hd
    · simp at hl

lemma twobsse2PostLoads_ok (mem : Mem) (addr len : Nat) (i : Int)
    (h : (((addr : Int) + i) % 16 = 0 ∧ 1 ≤ i) ∨ (len : Int) - 1 ≤ i) :
    loadsOk addr len (twobsse2PostLoads mem len i) := by
  unfold twobsse2PostLoads
  split
  · intro o bw hl
    simp at hl
  · rename_i hlt
    rcases h with ⟨h1, h2⟩ | h1
    · intro o bw hl d hd
      rw [List.mem_cons] at hl
      rcases hl with hl | hl
      · rw [Prod.mk.injEq] at hl
        rw [hl.1, hl.2]
        rw [hl.2] at hd
        exact ⟨by omega, (i-1).toNat, Or.inl (by omega), by omega⟩
      · exact twobsse2LoadsLoop_ok mem addr len _ i _ h1 h2 o bw hl d hd
    · omega

lemma twobsse2ProLoads_ok (mem : Mem) (addr len : Nat) :
    ∀ (f : Nat) (i : Int), 0 ≤ i →
      loadsOk addr len (twobsse2ProLoads mem addr len i f) := by
  intro f
  induction f with
  | zero =>
    intro i _ o bw hl
    simp [twobsse2ProLoads] at hl
  | succ f ih =>
    intro i h0 o bw hl d hd
    simp only [twobsse2ProLoads] at hl
    split at hl
    · rename_i hguard
      rw [List.mem_cons] at hl
      rcases hl with hl | hl
      · rw [Prod.mk.injEq] at hl
        rw [hl.1, hl.2]
        rw [hl.2] at hd
        exact ⟨by omega, i.toNat, Or.inl (by omega), by omega⟩
      · split at hl
        · rw [List.mem_cons] at hl
          rcases hl with hl | hl
          · rw [Prod.mk.injEq] at hl
            rw [hl.1, hl.2]
            rw [hl.2] at hd
            exact ⟨by omega, (i+1).toNat, Or.inl (by omega), by omega⟩
          · split at hl
            · simp at hl
            · split at hl
              · rename_i halign
                exact twobsse2PostLoads_ok mem addr len _ (Or.inl ⟨halign, by omega⟩) o bw hl d hd
              · exact ih (i+1) (by omega) o bw hl d hd
        · split at hl
          · rename_i halign
            exact twobsse2PostLoads_ok mem addr len _ (Or.inl ⟨halign, by omega⟩) o bw hl d hd
          · exact ih (i+1) (by omega) o bw hl d hd
    · rename_i hguard
      exact twobsse2PostLoads_ok mem addr len _ (Or.inr (by omega)) o bw hl d hd

lemma test_twobsse2_loads_ok (mem : Mem) (addr len : Nat) :
    loadsOk addr len (test_twobsse2_loads mem addr len) :=
  twobsse2ProLoads_ok mem addr len (len + 1) 0 le_rfl

def pureTwobSse2Loads (mem : Mem) (len : Nat) : Int → Nat → Nat → Nat → List (Int × Nat)
  | _, _, _, 0 => []
  | i, stars0, amask, f+1 =>
    if i < (len : Int) then
      (i, 16) ::
        (if mmask mem i hash 16 &&& (stars0 + ((mmask mem i star 16 &&& amask) <<< 1)) ≠ 0
          then []
        else pureTwobSse2Loads mem len (i+16)
          ((stars0 + ((mmask mem i star 16 &&& amask) <<< 1)) >>> 16) 0xffff f)
    else []

def test_pure_twobsse2_loads (mem : Mem) (addr len : Nat) : List (Int × Nat) :=
  let last_bits := addr % 16
  pureTwobSse2Loads mem len (-(last_bits : Int)) 0 (0xffff <<< last_bits) (len + 16)

lemma pureTwobSse2Loads_ok (mem : Mem) (addr len : Nat) :
    ∀ (f : Nat) (i : Int) (stars0 amask : Nat),
      ((addr : Int) + i) % 16 = 0 → -16 < i → 0 ≤ (addr : Int) + i →
      loadsOk addr len (pureTwobSse2Loads mem len i stars0 amask f) := by
  intro f
  induction f with
  | zero =>
    intro i stars0 amask _ _ _ o bw hl
    simp [pureTwobSse2Loads] at hl
  | succ f ih =>
    intro i stars0 amask halign hgt haddr o bw hl d hd
    simp only [pureTwobSse2Loads] at hl
    split at hl
    · rename_i hguard
      rw [List.mem_cons] at hl
      rcases hl with hl | hl
      · rw [Prod.mk.injEq] at hl
        rw [hl.1, hl.2]
        rw [hl.2] at hd
        refine ⟨by omega, ?_⟩
        by_cases hi : 0 ≤ i
        · exact ⟨i.toNat, Or.inl (by omega), by omega⟩
        · refine ⟨0, ?_, by omega⟩
          by_cases hlen : len = 0
          · exact Or.inr ⟨hlen, rfl⟩
          · exact Or.inl (by omega)
      · split at hl
        · simp at hl
        · exact ih (i+16) _ 0xffff (by omega) (by omega) (by omega) o bw hl d hd
    · simp at hl

lemma test_pure_twobsse2_loads_ok (mem : Mem) (addr len : Nat) :
    loadsOk addr len (test_pure_twobsse2_loads mem addr len) := by
  simp only [test_pure_twobsse2_loads]
  exact pureTwobSse2Loads_ok mem addr len (len + 16) _ 0 _ (by omega) (by omega) (by omega)

def mycroft2LoadsLoop (mem : Mem) (len : Nat) : Int → Nat → List (Int × Nat)
  | _, 0 => []
  | i, f+1 =>
    if i < (len : Int) then
      (i-1, 8) :: (i, 8) ::
        (if ((((wload mem (i-1) 8 ^^^ 0x2a2a2a2a2a2a2a2a) + M64 - 0x0101010101010101) % M64)
            &&& ((wload mem (i-1) 8 ^^^ 0x2a2a2a2a2a2a2a2a) ^^^ (M64 - 1))) &&&
            ((((wload mem i 8 ^^^ 0x2323232323232323) + M64 - 0x0101010101010101) % M64)
            &&& ((wload mem i 8 ^^^ 0x2323232323232323) ^^^ (M64 - 1))) &&&
            0x8080808080808080 ≠ 0 then []
        else mycroft2LoadsLoop mem len (i+8) f)
    else []

def mycroft2PostLoads (mem : Mem) (len : Nat) (i : Int) : List (Int × Nat) :=
  if i ≥ (len : Int) - 1 then [] else mycroft2LoadsLoop mem len i (len + 8)

def mycroft2ProLoads (mem : Mem) (addr len : Nat) : Int → Nat → List (Int × Nat)
  | _, 0 => []
  | i, f+1 =>
    if i < (len : Int) - 1 then
      (i, 1) ::
        (if mem i = star then
          (i+1, 1) :: (if mem (i+1) = hash then []
            else if ((addr : Int) + (i+1)) % 8 = 0 then mycroft2PostLoads mem len (i+1)
            else mycroft2ProLoads mem addr len (i+1) f)
        else if ((addr : Int) + (i+1)) % 8 = 0 then mycroft2PostLoads mem len (i+1)
        else mycroft2ProLoads mem addr len (i+1) f)
    else mycroft2PostLoads mem len i

def test_mycroft2_loads (mem : Mem) (addr len : Nat) : List (Int × Nat) :=
  mycroft2ProLoads mem addr len 0 (len + 1)

lemma mycroft2LoadsLoop_ok (mem : Mem) (addr len : Nat) :
    ∀ (f : Nat) (i : Int), ((addr : Int) + i) % 8 = 0 → 1 ≤ i →
      loadsOk addr len (mycroft2LoadsLoop mem len i f) := by
  intro f
  induction f with
  | zero =>
    intro i _ _ o bw hl
    simp [mycroft2LoadsLoop] at hl
  | succ f ih =>
    intro i halign h1 o bw hl d hd
    simp only [mycroft2LoadsLoop] at hl
    split at hl
    · rename_i hguard
      rw [List.mem_cons] at hl
      rcases hl with hl | hl
      · rw [Prod.mk.injEq] at hl
        rw [hl.1, hl.2]
        rw [hl.2] at hd
        refine ⟨by omega, ?_⟩
        by_cases hd0 : d = 0
        · exact ⟨(i-1).toNat, Or.inl (by omega), by omega⟩
        · exact ⟨i.toNat, Or.inl (by omega), by omega⟩
      · rw [List.mem_cons] at hl
        rcases hl with hl | hl
        · rw [Prod.mk.injEq] at hl
          rw [hl.1, hl.2]
          rw [hl.2] at hd
          exact ⟨by omega, i.toNat, Or.inl (by omega), by omega⟩
        · split at hl
          · simp at hl
          · exact ih (i+8) (by omega) (by omega) o bw hl d hd
    · simp at hl

lemma mycroft2PostLoads_ok (mem : Mem) (addr len : Nat) (i : Int)
    (h : (((addr : Int) + i) % 8 = 0 ∧ 1 ≤ i) ∨ (len : Int) - 1 ≤ i) :
    loadsOk addr len (mycroft2PostLoads mem len i) := by
  unfold mycroft2PostLoads
  split
  · intro o bw hl
    simp at hl
  · rename_i hlt
    rcases h with ⟨h1, h2⟩ | h1
    · exact mycroft2LoadsLoop_ok mem addr len _ i h1 h2
    · omega

lemma mycroft2ProLoads_ok (mem : Mem) (addr len : Nat) :
    ∀ (f : Nat) (i : Int), 0 ≤ i →
      loadsOk addr len (mycroft2ProLoads mem addr len i f) := by
  intro f
  induction f with
  | zero =>
    intro i _ o bw hl
    simp [mycroft2ProLoads] at hl
  | succ f ih =>
    intro i h0 o bw hl d hd
    simp only [mycroft2ProLoads] at hl
    split at hl
    · rename_i hguard
      rw [List.mem_cons] at hl
      rcases hl with hl | hl
      · rw [Prod.mk.injEq] at hl
        rw [hl.1, hl.2]
        rw [hl.2] at hd
        exact ⟨by omega, i.toNat, Or.inl (by omega), by omega⟩
      · split at hl
        · rw [List.mem_cons] at hl
          rcases hl with hl | hl
          · rw [Prod.mk.injEq] at hl
            rw [hl.1, hl.2]
            rw [hl.2] at hd
            exact ⟨by omega, (i+1).toNat, Or.inl (by omega), by omega⟩
          · split at hl
            · simp at hl
            · split at hl
              · rename_i halign
                exact mycroft2PostLoads_ok mem addr len _ (Or.inl ⟨halign, by omega⟩) o bw hl d hd
              · exact ih (i+1) (by omega) o bw hl d hd
        · split at hl
          · rename_i halign
            exact mycroft2PostLoads_ok mem addr len _ (Or.inl ⟨halign, by omega⟩) o bw hl d hd
          · exact ih (i+1) (by omega) o bw hl d hd
    · rename_i hguard
      exact mycroft2PostLoads_ok mem addr len _ (Or.inr (by omega)) o bw hl d hd

lemma test_mycroft2_loads_ok (mem : Mem) (addr len : Nat) :
    loadsOk addr len (test_mycroft2_loads mem addr len) :=
  mycroft2ProLoads_ok mem addr len (len + 1) 0 le_rfl

def pureMycroft2Loads (mem : Mem) (len : Nat) : Int → Nat → Nat → Nat → List (Int × Nat)
  | _, _, _, 0 => []
  | i, starsLow, highs, f+1 =>
    if i < (len : Int) then
      (i, 8) ::
        (if ((starsLow + (((((wload mem i 8 ^^^ 0x2a2a2a2a2a2a2a2a) + M64 -
              0x0101010101010101) % M64) &&&
              ((wload mem i 8 ^^^ 0x2a2a2a2a2a2a2a2a) ^^^ (M64 - 1)) &&& highs)
              <<< 8) % M64) % M64) &&&
            ((((wload mem i 8 ^^^ 0x2323232323232323) + M64 - 0x0101010101010101) % M64)
              &&& ((wload mem i 8 ^^^ 0x2323232323232323) ^^^ (M64 - 1))) ≠ 0 then []
        else pureMycroft2Loads mem len (i+8)
          (((((wload mem i 8 ^^^ 0x2a2a2a2a2a2a2a2a) + M64 - 0x0101010101010101) % M64) &&&
            ((wload mem i 8 ^^^ 0x2a2a2a2a2a2a2a2a) ^^^ (M64 - 1)) &&& highs) >>> 56)
          0x8080808080808080 f)
    else []

def test_pure_mycroft2_loads (mem : Mem) (addr len : Nat) : List (Int × Nat) :=
  let last_bits := addr % 8
  pureMycroft2Loads mem len (-(last_bits : Int)) 0
    ((0x8080808080808080 <<< (last_bits <<< 3)) % M64) (len + 8)

lemma pureMycroft2Loads_ok (mem : Mem) (addr len : Nat) :
    ∀ (f : Nat) (i : Int) (starsLow highs : Nat),
      ((addr : Int) + i) % 8 = 0 → -8 < i → 0 ≤ (addr : Int) + i →
      loadsOk addr len (pureMycroft2Loads mem len i starsLow highs f) := by
  intro f
  induction f with
  | zero =>
    intro i starsLow highs _ _ _ o bw hl
    simp [pureMycroft2Loads] at hl
  | succ f ih =>
    intro i starsLow highs halign hgt haddr o bw hl d hd
    simp only [pureMycroft2Loads] at hl
    split at hl
    · rename_i hguard
      rw [List.mem_cons] at hl
      rcases hl with hl | hl
      · rw [Prod.mk.injEq] at hl
        rw [hl.1, hl.2]
        rw [hl.2] at hd
        refine ⟨by omega, ?_⟩
        by_cases hi : 0 ≤ i
        · exact ⟨i.toNat, Or.inl (by omega), by omega⟩
        · refine ⟨0, ?_, by omega⟩
          by_cases hlen : len = 0
          · exact Or.inr ⟨hlen, rfl⟩
          · exact Or.inl (by omega)
      · split at hl
        · simp at hl
        · exact ih (i+8) _ 0x8080808080808080 (by omega) (by omega) (by omega) o bw hl d hd
    · simp at hl

lemma test_pure_mycroft2_loads_ok (mem : Mem) (addr len : Nat) :
    loadsOk addr len (test_pure_mycroft2_loads mem addr len) := by
  simp only [test_pure_mycroft2_loads]
  exact pureMycroft2Loads_ok mem addr len (len + 8) _ 0 _ (by omega) (by omega) (by omega)

/-- C4 counterexample: the claim as stated fails at length 0.  With base
address 3 (so 16-alignment 3) and `len = 0`, `test_pure_sse2` performs one
16-byte aligned load (recorded by its loads twin), but there is no byte
with index in `[0, 0)`, so no aligned block containing the load holds an
in-bounds byte. -/
theorem c4_claim_counterexample :
    test_pure_sse2_loads memA 3 0 = [(-3, 16)] ∧
    ¬ loadsOkClaim 3 0 (test_pure_sse2_loads memA 3 0) := by
  have hld : test_pure_sse2_loads memA 3 0 = [(-3, 16)] := by decide
  refine ⟨hld, ?_⟩
  intro h
  have hm : ((-3 : Int), (16 : Nat)) ∈ test_pure_sse2_loads memA 3 0 := by
    rw [hld]
    exact List.mem_singleton.mpr rfl
  obtain ⟨B, _, _, _, j, hj, _⟩ := h (-3) 16 hm
  omega

/-- C4 amended: for every scanner, every byte of every memory access lies
in an aligned block (of the access's width) that contains at least one byte
with index in `[0, len)` — or, when `len = 0`, the aligned block containing
the buffer's base address (pure variants read exactly that one block at
length 0; prologued variants read nothing).  This is per byte rather than
per load because `test_mycroft2`'s 8-byte loads at `i - 1` deliberately
straddle one 8-byte block boundary on the left; they never cross one on
the right. -/
theorem c4_loads_in_inhabited_blocks (mem : Mem) (addr len : Nat) :
    loadsOk addr len (test_naive_loads mem len) ∧
    loadsOk addr len (test_twobyte_loads mem len) ∧
    loadsOk addr len (test_pure_sse2_loads mem addr len) ∧
    loadsOk addr len (test_sse2_loads mem addr len) ∧
    loadsOk addr len (test_mycroft4_loads mem addr len) ∧
    loadsOk addr len (test_pure_mycroft4_loads mem addr len) ∧
    loadsOk addr len (test_mycroft_loads mem addr len) ∧
    loadsOk addr len (test_pure_mycroft_loads mem addr len) ∧
    loadsOk addr len (test_sse2_and_mycroft4_loads mem addr len) ∧
    loadsOk addr len (test_twosse2_loads mem addr len) ∧
    loadsOk addr len (test_twobsse2_loads mem addr len) ∧
    loadsOk addr len (test_pure_twobsse2_loads mem addr len) ∧
    loadsOk addr len (test_mycroft2_loads mem addr len) ∧
    loadsOk addr len (test_pure_mycroft2_loads mem addr len) :=
  ⟨test_naive_loads_ok mem addr len, test_twobyte_loads_ok mem addr len,
   test_pure_sse2_loads_ok mem addr len, test_sse2_loads_ok mem addr len,
   test_mycroft4_loads_ok mem addr len, test_pure_mycroft4_loads_ok mem addr len,
   test_mycroft_loads_ok mem addr len, test_pure_mycroft_loads_ok mem addr len,
   test_sse2_and_mycroft4_loads_ok mem addr len, test_twosse2_loads_ok mem addr len,
   test_twobsse2_loads_ok mem addr len, test_pure_twobsse2_loads_ok mem addr len,
   test_mycroft2_loads_ok mem addr len, test_pure_mycroft2_loads_ok mem addr len⟩

/-- C4 witness: the amended load-safety contract instantiated on the
example string with base address 7 and length 20. -/
theorem c4_loads_in_inhabited_blocks_witness :
    loadsOk 7 20 (test_naive_loads memN 20) ∧
    loadsOk 7 20 (test_twobyte_loads memN 20) ∧
    loadsOk 7 20 (test_pure_sse2_loads memN 7 20) ∧
    loadsOk 7 20 (test_sse2_loads memN 7 20) ∧
    loadsOk 7 20 (test_mycroft4_loads memN 7 20) ∧
    loadsOk 7 20 (test_pure_mycroft4_loads memN 7 20) ∧
    loadsOk 7 20 (test_mycroft_loads memN 7 20) ∧
    loadsOk 7 20 (test_pure_mycroft_loads memN 7 20) ∧
    loadsOk 7 20 (test_sse2_and_mycroft4_loads memN 7 20) ∧
    loadsOk 7 20 (test_twosse2_loads memN 7 20) ∧
    loadsOk 7 20 (test_twobsse2_loads memN 7 20) ∧
    loadsOk 7 20 (test_pure_twobsse2_loads memN 7 20) ∧
    loadsOk 7 20 (test_mycroft2_loads memN 7 20) ∧
    loadsOk 7 20 (test_pure_mycroft2_loads memN 7 20) :=
  c4_loads_in_inhabited_blocks memN 7 20
